import Mathlib

/-!
# The Mirror Exchange Sim — verification development

A shallow embedding of the repository's core components:

* `src/src/engine.py` — `Order`, `Trade`, `OrderBookSide`, `MatchingEngine`
  (price-time-priority matching with a lazily cleaned price heap);
* `src/src/network.py` — `NetworkConfig`, `LatencySimulator.next_latency_ms`
  (seeded drop/jitter model);
* `src/src/replayer.py` — `MarketEvent`, `apply_market_event`
  (ADD runs through the engine, CANCEL edits the tail order of a level);
* `src/simulation.py` — `SimEvent`, the `SimulationRunner` event loop and the
  `SimpleMarketMaker` strategy.

Modelling conventions:

* Python floats for prices/latencies are modelled as `Rat`; Python `int` as
  `Int` (arbitrary precision); order/event ids as `Nat`.
* Python's `heapq` is used only through `heappush`, `heap[0]` (peek-min) and
  `heappop` (pop-min); it is modelled observationally by a list kept sorted
  ascending, so the head is the minimum.
* Python dictionaries (`price_levels`, `orders`) are modelled as association
  lists; `self.orders` aliases the very objects stored in the level queues, and
  since only an order's price is ever read through it (prices never mutate), it
  is modelled as an id → price map.
* Mutation is modelled by explicit state passing.  A run-time error
  (`IndexError` from `best_queue[0]` on a missing/empty level) is modelled as
  `Option.none`.  `defaultdict`'s creation of an empty deque on a read is
  observable only on the crashing path or inside `get_queue_position`
  (whose created empty level no later claim observes), so reads are modelled
  as pure lookups.
* `numpy.random.default_rng(seed)` (PCG64) is a deterministic stream of draws
  fully determined by the seed; it is modelled by a seed plus a draw counter
  with a concrete mixing function standing in for the PCG64 output function.
  The claims at stake depend only on the generator being a deterministic,
  sequentially consumed function of the seed and the call sequence, and on
  uniform draws lying in `[0, 1)` and gamma draws being nonnegative — all of
  which the model provides.
-/

/- The Batteries rational primitives are `@[irreducible]`, which blocks
`decide`-style evaluation of concrete scenarios; restore default
transparency for them. -/
attribute [local semireducible] Rat.mul Rat.add Rat.sub Rat.inv Rat.ofScientific

/-! ## Basic enumerations -/

/-- `Order.side` strings `'buy'` / `'sell'` of `engine.py`. -/
inductive Side
  | buy
  | sell
deriving DecidableEq, Repr

/-- `Order.status` strings of `engine.py`: `'OPEN'`, `'PARTIAL'`, `'FILLED'`.
`PART` stands for the source's `'PARTIAL'` string. -/
inductive OrdStatus
  | OPEN
  | PART
  | FILLED
deriving DecidableEq, Repr

/-- Return value of `MatchingEngine.process_order`: `"RESTING"` or `"FILLED"`. -/
inductive OrderResult
  | RESTING
  | FILLED
deriving DecidableEq, Repr

/-- `MarketEvent.event_type` strings of `replayer.py`: `ADD`, `CANCEL`, `TRADE`. -/
inductive MKind
  | ADD
  | CANCEL
  | TRADE
deriving DecidableEq, Repr

/-! ## Orders and trades (`engine.py` lines 7–27) -/

/-- `engine.py` `Order` dataclass. -/
structure Order where
  id : Nat
  side : Side
  price : Rat
  qty : Int
  timestamp : Int
  filled_qty : Int := 0
  status : OrdStatus := OrdStatus.OPEN
deriving DecidableEq, Repr

/-- `Order.open_qty` property: `self.qty - self.filled_qty`. -/
def Order.open_qty (o : Order) : Int := o.qty - o.filled_qty

/-- `engine.py` `Trade` dataclass. -/
structure Trade where
  price : Rat
  qty : Int
  maker_order_id : Nat
  taker_order_id : Nat
deriving DecidableEq, Repr

/-! ## Association-list helpers (model of Python dicts with unique keys) -/

/-- Dict read without default (`d[k]` where `k` may be absent). -/
def lookupLevel : List (Rat × List Order) → Rat → Option (List Order)
  | [], _ => none
  | (p, q) :: rest, k => if p = k then some q else lookupLevel rest k

/-- Replace the queue stored at a present key (models in-place deque mutation);
a miss leaves the list unchanged (never exercised on a miss). -/
def setLevel : List (Rat × List Order) → Rat → List Order → List (Rat × List Order)
  | [], _, _ => []
  | (p, q) :: rest, k, q' => if p = k then (p, q') :: rest else (p, q) :: setLevel rest k q'

/-- `defaultdict(deque)` append: `d[k].append(o)` creates the entry when absent
(new dict keys go to the end, as Python preserves insertion order). -/
def appendLevel : List (Rat × List Order) → Rat → Order → List (Rat × List Order)
  | [], k, o => [(k, [o])]
  | (p, q) :: rest, k, o =>
    if p = k then (p, q ++ [o]) :: rest else (p, q) :: appendLevel rest k o

/-- `del d[k]`. -/
def eraseLevel : List (Rat × List Order) → Rat → List (Rat × List Order)
  | [], _ => []
  | (p, q) :: rest, k => if p = k then rest else (p, q) :: eraseLevel rest k

/-- Keys of the level dict. -/
def levelKeys (levels : List (Rat × List Order)) : List Rat := levels.map Prod.fst

/-- The `orders` dict of a side: id → price of the aliased order object
(only the price is ever read through this dict, and prices never mutate). -/
def lookupRef : List (Nat × Rat) → Nat → Option Rat
  | [], _ => none
  | (i, p) :: rest, k => if i = k then some p else lookupRef rest k

/-- `self.orders[order.id] = order` (insert or overwrite). -/
def setRef : List (Nat × Rat) → Nat → Rat → List (Nat × Rat)
  | [], k, v => [(k, v)]
  | (i, p) :: rest, k, v => if i = k then (i, v) :: rest else (i, p) :: setRef rest k v

/-- Ordered insert into an ascending list: model of `heapq.heappush` for a heap
that is only ever peeked/popped at the minimum. -/
def insertKey (k : Rat) : List Rat → List Rat
  | [] => [k]
  | x :: rest => if k ≤ x then k :: x :: rest else x :: insertKey k rest

/-! ## Order book side (`engine.py` lines 30–81) -/

/-- Raw heap key stored for a price: `-price` on the bid side (`engine.py`
line 42), the price itself on the ask side. -/
def keyOf (is_bid : Bool) (p : Rat) : Rat := if is_bid then -p else p

/-- Price recovered from a raw heap key (`engine.py` lines 52, 75). -/
def priceOfKey (is_bid : Bool) (k : Rat) : Rat := if is_bid then -k else k

/-- `engine.py` `OrderBookSide`. -/
structure OrderBookSide where
  is_bid : Bool
  price_heap : List Rat
  price_levels : List (Rat × List Order)
  orders : List (Nat × Rat)
deriving DecidableEq, Repr

/-- `OrderBookSide.add` (`engine.py` lines 40–46): push the (possibly negated)
price onto the heap if the level is new, append the order to its level's FIFO
queue, register it in the id map. -/
def OrderBookSide.add (s : OrderBookSide) (o : Order) : OrderBookSide :=
  let heap' :=
    if (lookupLevel s.price_levels o.price).isSome then s.price_heap
    else insertKey (keyOf s.is_bid o.price) s.price_heap
  { s with
    price_heap := heap'
    price_levels := appendLevel s.price_levels o.price o
    orders := setRef s.orders o.id o.price }

/-- `OrderBookSide.best_price` (`engine.py` lines 48–52): peek the heap minimum
and undo the bid-side negation; `None` when the heap is empty. -/
def OrderBookSide.best_price (s : OrderBookSide) : Option Rat :=
  match s.price_heap with
  | [] => none
  | k :: _ => some (priceOfKey s.is_bid k)

/-- The scan of `get_queue_position` (`engine.py` lines 64–69): sum `open_qty`
until the target id is found (summing the whole queue when it is absent). -/
def sumAhead (oid : Nat) : List Order → Int
  | [] => 0
  | o :: rest => if o.id = oid then 0 else Order.open_qty o + sumAhead oid rest

/-- `OrderBookSide.get_queue_position` (`engine.py` lines 54–69): `-1` for an
id absent from the `orders` dict, else the open quantity resting ahead of the
order in its price level's queue (the dict read of a deleted level yields an
empty queue). -/
def OrderBookSide.get_queue_position (s : OrderBookSide) (oid : Nat) : Int :=
  match lookupRef s.orders oid with
  | none => -1
  | some price => sumAhead oid ((lookupLevel s.price_levels price).getD [])

/-- The `while` loop of `remove_filled_levels` (`engine.py` lines 73–81): pop
heap entries whose level queue is empty (deleting the level entry) until the
top of the heap has a non-empty queue. -/
def removeFilledLoop (is_bid : Bool) : List Rat → List (Rat × List Order) → List Rat × List (Rat × List Order)
  | [], levels => ([], levels)
  | k :: rest, levels =>
    match lookupLevel levels (priceOfKey is_bid k) with
    | some (_ :: _) => (k :: rest, levels)
    | _ => removeFilledLoop is_bid rest (eraseLevel levels (priceOfKey is_bid k))

/-- `OrderBookSide.remove_filled_levels` (`engine.py` lines 71–81). -/
def OrderBookSide.remove_filled_levels (s : OrderBookSide) : OrderBookSide :=
  let r := removeFilledLoop s.is_bid s.price_heap s.price_levels
  { s with price_heap := r.1, price_levels := r.2 }

/-! ## Matching engine (`engine.py` lines 83–137) -/

/-- `engine.py` `MatchingEngine`. -/
structure MatchingEngine where
  bids : OrderBookSide
  asks : OrderBookSide
  trades : List Trade
deriving DecidableEq, Repr

/-- `MatchingEngine()` constructor: two empty sides and an empty trade log. -/
def emptyEngine : MatchingEngine :=
  { bids := { is_bid := true, price_heap := [], price_levels := [], orders := [] }
    asks := { is_bid := false, price_heap := [], price_levels := [], orders := [] }
    trades := [] }

/-- The per-order mutation of `_execute_trade` (`engine.py` lines 128–135):
bump `filled_qty` and recompute the status from the new `open_qty`. -/
def setFill (o : Order) (q : Int) : Order :=
  let filled := o.filled_qty + q
  { o with
    filled_qty := filled
    status := if o.qty - filled = 0 then OrdStatus.FILLED else OrdStatus.PART }

/-- `MatchingEngine._execute_trade` (`engine.py` lines 127–138): mutate maker
and taker, and build the `Trade` record appended to the engine's log. -/
def MatchingEngine.execute_trade (maker taker : Order) (q : Int) (price : Rat) :
    Order × Order × Trade :=
  (setFill maker q, setFill taker q,
    { price := price, qty := q, maker_order_id := maker.id, taker_order_id := taker.id })

/-- The `while` matching loop of `process_order` (`engine.py` lines 98–119),
with explicit fuel (the caller supplies fuel that provably suffices on
well-formed books; exhaustion and the `IndexError` of `best_queue[0]` on a
missing or empty level are both modelled as `none`). -/
def matchLoop : Nat → Order → OrderBookSide → List Trade → Option (Order × OrderBookSide × List Trade)
  | 0, _, _, _ => none
  | Nat.succ fuel, order, opp, trades =>
    if 0 < Order.open_qty order then
      match OrderBookSide.best_price opp with
      | none => some (order, opp, trades)
      | some bp =>
        if (order.side = Side.buy ∧ bp ≤ order.price) ∨
           (order.side = Side.sell ∧ order.price ≤ bp) then
          match lookupLevel opp.price_levels bp with
          | some (maker :: restQ) =>
            let q := min (Order.open_qty order) (Order.open_qty maker)
            let r := MatchingEngine.execute_trade maker order q bp
            let trades' := trades ++ [r.2.2]
            if Order.open_qty r.1 = 0 then
              let opp' := OrderBookSide.remove_filled_levels
                { opp with price_levels := setLevel opp.price_levels bp restQ }
              matchLoop fuel r.2.1 opp' trades'
            else
              matchLoop fuel r.2.1
                { opp with price_levels := setLevel opp.price_levels bp (r.1 :: restQ) } trades'
          | _ => none
        else some (order, opp, trades)
    else some (order, opp, trades)

/-- Number of orders resting on a side (fuel bound for the matching loop). -/
def sideOrderCount (s : OrderBookSide) : Nat :=
  (s.price_levels.map (fun pq => pq.2.length)).sum

/-- `MatchingEngine.process_order` (`engine.py` lines 89–125): match against
the opposing side while a cross exists, then rest any residual quantity on the
order's own side; returns `RESTING` or `FILLED` (a crash is `none`). -/
def MatchingEngine.process_order (e : MatchingEngine) (o : Order) :
    Option (MatchingEngine × OrderResult) :=
  let opp := if o.side = Side.sell then e.bids else e.asks
  match matchLoop (sideOrderCount opp + 2) o opp e.trades with
  | none => none
  | some (o', opp', trades') =>
    let e' :=
      if o.side = Side.sell then { e with bids := opp', trades := trades' }
      else { e with asks := opp', trades := trades' }
    if 0 < Order.open_qty o' then
      some (if o.side = Side.sell
            then { e' with asks := OrderBookSide.add e'.asks o' }
            else { e' with bids := OrderBookSide.add e'.bids o' },
            OrderResult.RESTING)
    else
      some (e', OrderResult.FILLED)

/-- Engine states reachable from `MatchingEngine()` by completed
`process_order` calls. -/
inductive Reachable : MatchingEngine → Prop
  | empty : Reachable emptyEngine
  | step {e : MatchingEngine} {o : Order} {e' : MatchingEngine} {r : OrderResult} :
      Reachable e → MatchingEngine.process_order e o = some (e', r) → Reachable e'

/-! ## Market-data replay (`replayer.py`) -/

/-- `replayer.py` `MarketEvent` dataclass (the replay source assigns the
synthetic `order_id`). -/
structure MarketEvent where
  timestamp : Int
  event_type : MKind
  side : Side
  price : Rat
  qty : Int
  order_id : Nat
deriving DecidableEq, Repr

/-- The CANCEL branch of `apply_market_event` (`replayer.py` lines 69–81):
when the named side has the price level with a non-empty queue, reduce the
quantity of the level's tail order (`queue[-1]`, the most recently added) by
the cancel quantity, but only if its open quantity covers it; otherwise do
nothing.  The event's `order_id` is never consulted. -/
def cancelOnSide (s : OrderBookSide) (price : Rat) (cq : Int) : OrderBookSide :=
  match lookupLevel s.price_levels price with
  | none => s
  | some queue =>
    match queue.getLast? with
    | none => s
    | some target =>
      if cq ≤ Order.open_qty target then
        { s with
          price_levels := setLevel s.price_levels price
            (queue.dropLast ++ [{ target with qty := target.qty - cq }]) }
      else s

/-- `apply_market_event` (`replayer.py` lines 51–81): an ADD synthesizes an
`Order` and runs it through `process_order`; a CANCEL edits the tail order of
the level; a TRADE record falls through with no effect. -/
def applyMarketEvent (e : MatchingEngine) (ev : MarketEvent) : Option MatchingEngine :=
  match ev.event_type with
  | MKind.ADD =>
    match MatchingEngine.process_order e
      { id := ev.order_id, side := ev.side, price := ev.price,
        qty := ev.qty, timestamp := ev.timestamp } with
    | some (e', _) => some e'
    | none => none
  | MKind.CANCEL =>
    if ev.side = Side.buy then some { e with bids := cancelOnSide e.bids ev.price ev.qty }
    else some { e with asks := cancelOnSide e.asks ev.price ev.qty }
  | MKind.TRADE => some e

/-! ## Latency model (`network.py`) -/

/-- `network.py` `NetworkConfig` dataclass. -/
structure NetworkConfig where
  name : String
  base_latency_ms : Rat
  jitter_scale : Rat
  drop_probability : Rat
deriving DecidableEq, Repr

/-- Model of `numpy.random.default_rng(seed)`: the generator state is the seed
plus the number of draws consumed so far. -/
structure Rng where
  seed : Nat
  counter : Nat
deriving DecidableEq, Repr

/-- Concrete mixing function standing in for the PCG64 output function: a
deterministic value in `[0, 1000003)` for each (seed, draw index) pair. -/
def rngMix (seed counter : Nat) : Nat :=
  (seed * 6364136223846793005 + counter * 1442695040888963407 + 1013904223) % 1000003

/-- `self.rng.random()`: one uniform draw in `[0, 1)`, consuming one unit of
generator state. -/
def rngUniform (r : Rng) : Rat × Rng :=
  (((rngMix r.seed r.counter : Int) : Rat) / 1000003, { r with counter := r.counter + 1 })

/-- `self.rng.gamma(shape, scale)`: one gamma draw, consuming one unit of
generator state.  The sampled value is modelled as `scale` times a nonnegative
shape-dependent variate (`gamma(k, θ) = θ · gamma(k, 1)`); its exact
distribution is irrelevant to the claims, which concern draw order, scaling
and nonnegativity. -/
def rngGamma (shape scale : Rat) (r : Rng) : Rat × Rng :=
  (scale * (shape + ((rngMix r.seed r.counter : Int) : Rat) / 1000003),
   { r with counter := r.counter + 1 })

/-- `LatencySimulator.next_latency_ms` (`network.py` lines 16–21): first a
uniform draw compared against the drop probability — a hit returns the
distinguished `-1.0` with no further draw; otherwise one gamma draw with
shape 2 and the configured jitter scale, returning base latency plus jitter. -/
def nextLatencyMs (cfg : NetworkConfig) (r : Rng) : Rat × Rng :=
  let u := rngUniform r
  if u.1 < cfg.drop_probability then (-1, u.2)
  else
    let j := rngGamma 2 cfg.jitter_scale u.2
    (cfg.base_latency_ms + j.1, j.2)

/-! ## Discrete-event scheduler (`simulation.py` lines 109–188)

The `SimulationRunner` control flow is embedded verbatim; following the
architecture in which it is the core scheduler (and which its callers compose
via the package exports), it drives the `MatchingEngine` of `engine.py`
through `apply_market_event` of `replayer.py` and draws delays from the
`LatencySimulator` of `network.py`.  The strategy collaborator is a pure
decision function over an explicit strategy state. -/

/-- `simulation.py` `SimEvent`: a timestamp plus a payload; the `event_type`
string is determined by the payload's constructor. -/
inductive SimPayload
  | market (ev : MarketEvent)
  | arrival (o : Order)
deriving DecidableEq, Repr

/-- A scheduled event. -/
structure SimEvent where
  timestamp : Int
  payload : SimPayload
deriving DecidableEq, Repr

/-- `heapq.heappush` on `SimEvent`s compared by timestamp alone: modelled as a
stable ordered insert (ties keep insertion order), a deterministic refinement
of the heap's unspecified-but-deterministic tie order. -/
def pushEvent (ev : SimEvent) : List SimEvent → List SimEvent
  | [] => [ev]
  | e :: rest =>
    if ev.timestamp < e.timestamp then ev :: e :: rest else e :: pushEvent ev rest

/-- Python `int(x)` on a float: truncation toward zero, applied to
`latency_ms * 1000` in `_handle_market_event`. -/
def pyTrunc (q : Rat) : Int := if 0 ≤ q then q.floor else -((-q).floor)

/-- Full state of a `SimulationRunner` plus the observable output streams
(the source prints the latency sample, the computed arrival time of every
scheduled order, and every order delivered to the engine; these prints are
modelled as append-only logs). -/
structure RunnerState (σ : Type) where
  engine : MatchingEngine
  events : List SimEvent
  stream : List MarketEvent
  strat : σ
  rng : Rng
  current_time : Int
  latencies : List Rat
  arrivals : List Int
  delivered : List Nat
deriving Repr

/-- `_schedule_next_market_event` (`simulation.py` lines 145–150): pull one
record from the replay stream, if any remain, and enqueue it. -/
def scheduleNextMarket {σ : Type} (st : RunnerState σ) : RunnerState σ :=
  match st.stream with
  | [] => st
  | ev :: rest =>
    { st with
      events := pushEvent { timestamp := ev.timestamp, payload := SimPayload.market ev } st.events
      stream := rest }

/-- One iteration of `SimulationRunner.run` (`simulation.py` lines 152–187):
pop the earliest event, advance the clock, dispatch.  A MARKET event is
applied to the engine, the strategy is consulted, a returned order is delayed
by the latency model and re-enqueued as an ORDER_ARRIVAL (note: the `-1.0`
drop signal is not treated specially — the arrival is scheduled at
`current_time - 1000`), and the next market record is pulled.  An
ORDER_ARRIVAL is delivered to `process_order`.  An engine crash aborts the
run, returning the state reached so far. -/
def runLoop {σ : Type} (cfg : NetworkConfig)
    (decide : σ → MatchingEngine → Option Order × σ) :
    Nat → RunnerState σ → RunnerState σ
  | 0, st => st
  | Nat.succ fuel, st =>
    match st.events with
    | [] => st
    | ev :: rest =>
      let st := { st with events := rest, current_time := ev.timestamp }
      match ev.payload with
      | SimPayload.market me =>
        match applyMarketEvent st.engine me with
        | none => st
        | some engine' =>
          let d := decide st.strat engine'
          let st :=
            match d.1 with
            | none => { st with engine := engine', strat := d.2 }
            | some uo =>
              let l := nextLatencyMs cfg st.rng
              let latency_us := pyTrunc (l.1 * 1000)
              let arrival_time := st.current_time + latency_us
              { st with
                engine := engine'
                strat := d.2
                rng := l.2
                latencies := st.latencies ++ [l.1]
                arrivals := st.arrivals ++ [arrival_time]
                events := pushEvent { timestamp := arrival_time, payload := SimPayload.arrival uo } st.events }
          runLoop cfg decide fuel (scheduleNextMarket st)
      | SimPayload.arrival o =>
        match MatchingEngine.process_order st.engine o with
        | none => st
        | some r =>
          runLoop cfg decide fuel
            { st with engine := r.1, delivered := st.delivered ++ [o.id] }

/-- A whole simulation run: construct the runner (seeding the generator,
pulling the first market record) and drain the event queue.  Every MARKET
event enqueues at most one ORDER_ARRIVAL and one further MARKET event, so
`2 * |stream| + 1` iterations drain the queue. -/
def runSimulation {σ : Type} (cfg : NetworkConfig) (seed : Nat)
    (stream : List MarketEvent)
    (decide : σ → MatchingEngine → Option Order × σ) (s0 : σ) : RunnerState σ :=
  runLoop cfg decide (2 * stream.length + 1)
    (scheduleNextMarket
      { engine := emptyEngine
        events := []
        stream := stream
        strat := s0
        rng := { seed := seed, counter := 0 }
        current_time := 0
        latencies := []
        arrivals := []
        delivered := [] })

/-- The observable output of a run: the latency samples, the arrival
timestamps of scheduled orders, and the executed trades. -/
def runOutputs {σ : Type} (st : RunnerState σ) : List Rat × List Int × List Trade :=
  (st.latencies, st.arrivals, st.engine.trades)

/-- `SimpleMarketMaker` (`simulation.py` lines 120–130): fire once, when a
best bid exists (Python truthiness also rejects a `0.0` bid) of at least
`100.00`, submitting `Order(999, 'buy', 100.05, 10, 0)`. -/
def simpleMarketMaker (sent : Bool) (e : MatchingEngine) : Option Order × Bool :=
  match OrderBookSide.best_price e.bids with
  | some bb =>
    if ¬sent ∧ ¬bb = 0 ∧ 100 ≤ bb then
      (some { id := 999, side := Side.buy, price := 100.05, qty := 10, timestamp := 0 }, true)
    else (none, sent)
  | none => (none, sent)

/-! ## Invariant predicates and scenario fixtures -/

/-- Well-formedness of one book side, as maintained by the engine: the lazy
heap is strictly sorted by raw key, its keys are exactly the (duplicate-free)
price-level keys, every level queue is non-empty, and every resting order has
strictly positive open quantity. -/
structure SideWF (s : OrderBookSide) : Prop where
  heap_sorted : s.price_heap.Pairwise (· < ·)
  keys_nodup : (levelKeys s.price_levels).Nodup
  heap_levels : ∀ p : Rat, keyOf s.is_bid p ∈ s.price_heap ↔ p ∈ levelKeys s.price_levels
  levels_ne : ∀ pq ∈ s.price_levels, pq.2 ≠ []
  open_pos : ∀ pq ∈ s.price_levels, ∀ o ∈ pq.2, 0 < Order.open_qty o

/-- Well-formedness of the whole engine, including the no-crossed-book
condition. -/
structure EngineWF (e : MatchingEngine) : Prop where
  bids_wf : SideWF e.bids
  asks_wf : SideWF e.asks
  bids_flag : e.bids.is_bid = true
  asks_flag : e.asks.is_bid = false
  not_crossed : ∀ bb ba, OrderBookSide.best_price e.bids = some bb →
    OrderBookSide.best_price e.asks = some ba → bb < ba

/-- `0 ≤ filled_qty ≤ qty` for a single order. -/
def BddOrder (o : Order) : Prop := 0 ≤ o.filled_qty ∧ o.filled_qty ≤ o.qty

/-- Every order resting on the side satisfies `0 ≤ filled_qty ≤ qty`. -/
def BddSide (s : OrderBookSide) : Prop :=
  ∀ pq ∈ s.price_levels, ∀ o ∈ pq.2, BddOrder o

/-- Chain `process_order` calls, keeping the engine and dropping the return
code (scaffolding for concrete scenarios). -/
def chainProcess (e : Option MatchingEngine) (o : Order) : Option MatchingEngine :=
  match e with
  | some e => (MatchingEngine.process_order e o).map Prod.fst
  | none => none

/-! ### Fixtures for the end-to-end demo scenario (`engine.py` lines 141–157) -/

/-- Resting ask #1: 100 @ 101.00, t=1000. -/
def demoSell1 : Order := { id := 1, side := Side.sell, price := 101, qty := 100, timestamp := 1000 }

/-- Resting ask #2: 50 @ 101.00, t=1001. -/
def demoSell2 : Order := { id := 2, side := Side.sell, price := 101, qty := 50, timestamp := 1001 }

/-- Resting ask #3: 200 @ 102.00, t=1002. -/
def demoSell3 : Order := { id := 3, side := Side.sell, price := 102, qty := 200, timestamp := 1002 }

/-- Aggressive buy #99: 120 @ 101.50, t=2000. -/
def demoBuy99 : Order := { id := 99, side := Side.buy, price := 101.5, qty := 120, timestamp := 2000 }

/-- The book after injecting the three resting asks. -/
def demoBook : Option MatchingEngine :=
  chainProcess (chainProcess (chainProcess (some emptyEngine) demoSell1) demoSell2) demoSell3

/-! ### Fixtures for the drop-scenario run -/

/-- A network profile with drop probability pinned at `1.0`. -/
def dropConfig : NetworkConfig :=
  { name := "AlwaysDrop", base_latency_ms := 5, jitter_scale := 2, drop_probability := 1 }

/-- One replayed ADD that lifts the best bid to 100.00 and so triggers
`SimpleMarketMaker`. -/
def dropMarketEvent : MarketEvent :=
  { timestamp := 1000, event_type := MKind.ADD, side := Side.buy, price := 100,
    qty := 500, order_id := 10001 }

/-- The drop-scenario run: seed 42, one market record, `SimpleMarketMaker`. -/
def dropRun : RunnerState Bool :=
  runSimulation dropConfig 42 [dropMarketEvent] simpleMarketMaker false

/-! ### Fixture for the stale queue-position query -/

/-- Sell 10 @ 101 (id 1, t=1000), sell 5 @ 101 (id 2, t=1001), then an
aggressive buy 10 @ 101 (id 3) that fully fills and removes order #1.  The ask
side's `orders` dict still knows id 1. -/
def staleBook : MatchingEngine :=
  (chainProcess (chainProcess (chainProcess (some emptyEngine)
      { id := 1, side := Side.sell, price := 101, qty := 10, timestamp := 1000 })
      { id := 2, side := Side.sell, price := 101, qty := 5, timestamp := 1001 })
      { id := 3, side := Side.buy, price := 101, qty := 10, timestamp := 1002 }).getD emptyEngine

/-! ### Fixtures for price-time priority -/

/-- First-arrived resting order: quantity `a` at price `p` (t=1000). -/
def fifoRest1 (side : Side) (a : Int) (p : Rat) : Order :=
  { id := 1, side := side, price := p, qty := a, timestamp := 1000 }

/-- Second-arrived resting order: quantity `b` at the same price (t=1001). -/
def fifoRest2 (side : Side) (b : Int) (p : Rat) : Order :=
  { id := 2, side := side, price := p, qty := b, timestamp := 1001 }

/-- The opposing taker: quantity `q`, limit `l` (t=2000). -/
def fifoTaker (side : Side) (q : Int) (l : Rat) : Order :=
  { id := 99, side := side, price := l, qty := q, timestamp := 2000 }

/-- The engine after the first resting order of the price-time-priority
scenario. -/
def fifoBook1 (side : Side) (a : Int) (p : Rat) : MatchingEngine :=
  match side with
  | Side.sell =>
    { bids := { is_bid := true, price_heap := [], price_levels := [], orders := [] }
      asks := { is_bid := false, price_heap := [p],
                price_levels := [(p, [fifoRest1 Side.sell a p])], orders := [(1, p)] }
      trades := [] }
  | Side.buy =>
    { bids := { is_bid := true, price_heap := [-p],
                price_levels := [(p, [fifoRest1 Side.buy a p])], orders := [(1, p)] }
      asks := { is_bid := false, price_heap := [], price_levels := [], orders := [] }
      trades := [] }

/-- The engine after both resting orders of the price-time-priority
scenario. -/
def fifoBook2 (side : Side) (a b : Int) (p : Rat) : MatchingEngine :=
  match side with
  | Side.sell =>
    { bids := { is_bid := true, price_heap := [], price_levels := [], orders := [] }
      asks := { is_bid := false, price_heap := [p],
                price_levels := [(p, [fifoRest1 Side.sell a p, fifoRest2 Side.sell b p])],
                orders := [(1, p), (2, p)] }
      trades := [] }
  | Side.buy =>
    { bids := { is_bid := true, price_heap := [-p],
                price_levels := [(p, [fifoRest1 Side.buy a p, fifoRest2 Side.buy b p])],
                orders := [(1, p), (2, p)] }
      asks := { is_bid := false, price_heap := [], price_levels := [], orders := [] }
      trades := [] }

/-- One resting ask 10@101: the engine reached from empty by one sell. -/
def crossBook1 : MatchingEngine :=
  { bids := { is_bid := true, price_heap := [], price_levels := [], orders := [] }
    asks := { is_bid := false, price_heap := [101], price_levels := [(101, [{ id := 1, side := Side.sell, price := 101, qty := 10, timestamp := 1000 }])], orders := [(1, 101)] }
    trades := [] }

/-- `crossBook1` plus a resting bid 5@100. -/
def crossBook2 : MatchingEngine :=
  { bids := { is_bid := true, price_heap := [-100], price_levels := [(100, [{ id := 2, side := Side.buy, price := 100, qty := 5, timestamp := 1001 }])], orders := [(2, 100)] }
    asks := crossBook1.asks
    trades := [] }

/-! ## Theorems -/

/-! ### Shared helper lemmas on the list structures -/


theorem lookupLevel_isSome_iff {ls : List (Rat × List Order)} {p : Rat} :
    (lookupLevel ls p).isSome ↔ p ∈ levelKeys ls := by
  induction ls with
  | nil => simp [lookupLevel, levelKeys]
  | cons hd tl ih =>
    obtain ⟨k, q⟩ := hd
    simp only [lookupLevel, levelKeys, List.map_cons, List.mem_cons]
    by_cases hk : k = p
    · subst hk; simp
    · rw [if_neg hk]
      simp only [levelKeys] at ih
      rw [ih]
      constructor
      · exact Or.inr
      · rintro (h | h)
        · exact absurd h.symm hk
        · exact h

theorem lookupLevel_eq_none {ls : List (Rat × List Order)} {p : Rat}
    (h : p ∉ levelKeys ls) : lookupLevel ls p = none := by
  have h2 : ¬(lookupLevel ls p).isSome := fun hs => h (lookupLevel_isSome_iff.1 hs)
  exact Option.not_isSome_iff_eq_none.1 h2

theorem mem_levelKeys_of_lookup {ls : List (Rat × List Order)} {p : Rat}
    {q : List Order} (h : lookupLevel ls p = some q) : p ∈ levelKeys ls :=
  lookupLevel_isSome_iff.1 (by simp [h])

theorem lookupLevel_mem {ls : List (Rat × List Order)} {p : Rat} {q : List Order}
    (h : lookupLevel ls p = some q) : (p, q) ∈ ls := by
  induction ls with
  | nil => simp [lookupLevel] at h
  | cons hd tl ih =>
    obtain ⟨k, q0⟩ := hd
    by_cases hk : k = p
    · subst hk
      rw [lookupLevel, if_pos rfl] at h
      obtain rfl : q0 = q := by simpa using h
      exact List.mem_cons_self _ _
    · rw [lookupLevel, if_neg hk] at h
      exact List.mem_cons_of_mem _ (ih h)

theorem lookupLevel_setLevel_self {ls : List (Rat × List Order)} {p : Rat}
    {q0 q : List Order} (h : lookupLevel ls p = some q0) :
    lookupLevel (setLevel ls p q) p = some q := by
  induction ls with
  | nil => simp [lookupLevel] at h
  | cons hd tl ih =>
    obtain ⟨k, qk⟩ := hd
    by_cases hk : k = p
    · subst hk
      rw [setLevel, if_pos rfl, lookupLevel, if_pos rfl]
    · rw [lookupLevel, if_neg hk] at h
      rw [setLevel, if_neg hk, lookupLevel, if_neg hk]
      exact ih h

theorem lookupLevel_setLevel_ne {ls : List (Rat × List Order)} {p p' : Rat}
    {q : List Order} (h : p' ≠ p) :
    lookupLevel (setLevel ls p q) p' = lookupLevel ls p' := by
  induction ls with
  | nil => simp [setLevel]
  | cons hd tl ih =>
    obtain ⟨k, qk⟩ := hd
    by_cases hk : k = p
    · subst hk
      rw [setLevel, if_pos rfl, lookupLevel, if_neg (fun hh => h hh.symm),
        lookupLevel, if_neg (fun hh => h hh.symm)]
    · rw [setLevel, if_neg hk]
      by_cases hk' : k = p'
      · subst hk'
        rw [lookupLevel, if_pos rfl, lookupLevel, if_pos rfl]
      · rw [lookupLevel, if_neg hk', lookupLevel, if_neg hk']
        exact ih

theorem levelKeys_setLevel (ls : List (Rat × List Order)) (p : Rat) (q : List Order) :
    levelKeys (setLevel ls p q) = levelKeys ls := by
  induction ls with
  | nil => simp [setLevel]
  | cons hd tl ih =>
    obtain ⟨k, qk⟩ := hd
    by_cases hk : k = p
    · subst hk
      rw [setLevel, if_pos rfl]
      simp [levelKeys]
    · rw [setLevel, if_neg hk]
      simp only [levelKeys, List.map_cons]
      simp only [levelKeys] at ih
      rw [ih]

theorem mem_setLevel {ls : List (Rat × List Order)} {p : Rat} {q : List Order}
    {pq : Rat × List Order} (h : pq ∈ setLevel ls p q) : pq ∈ ls ∨ pq = (p, q) := by
  induction ls with
  | nil => simp [setLevel] at h
  | cons hd tl ih =>
    obtain ⟨k, qk⟩ := hd
    by_cases hk : k = p
    · subst hk
      rw [setLevel, if_pos rfl] at h
      rcases List.mem_cons.1 h with h | h
      · right; simp [h]
      · left; exact List.mem_cons_of_mem _ h
    · rw [setLevel, if_neg hk] at h
      rcases List.mem_cons.1 h with h | h
      · left; simp [h]
      · rcases ih h with h' | h'
        · left; exact List.mem_cons_of_mem _ h'
        · right; exact h'

theorem mem_eraseLevel {ls : List (Rat × List Order)} {p : Rat}
    {pq : Rat × List Order} (h : pq ∈ eraseLevel ls p) : pq ∈ ls := by
  induction ls with
  | nil => simp [eraseLevel] at h
  | cons hd tl ih =>
    obtain ⟨k, qk⟩ := hd
    by_cases hk : k = p
    · subst hk
      rw [eraseLevel, if_pos rfl] at h
      exact List.mem_cons_of_mem _ h
    · rw [eraseLevel, if_neg hk] at h
      rcases List.mem_cons.1 h with h | h
      · simp [h]
      · exact List.mem_cons_of_mem _ (ih h)

theorem lookupLevel_eraseLevel_ne {ls : List (Rat × List Order)} {p p' : Rat}
    (h : p' ≠ p) : lookupLevel (eraseLevel ls p) p' = lookupLevel ls p' := by
  induction ls with
  | nil => simp [eraseLevel]
  | cons hd tl ih =>
    obtain ⟨k, qk⟩ := hd
    by_cases hk : k = p
    · subst hk
      rw [eraseLevel, if_pos rfl, lookupLevel, if_neg (fun hh => h hh.symm)]
    · rw [eraseLevel, if_neg hk]
      by_cases hk' : k = p'
      · subst hk'
        rw [lookupLevel, if_pos rfl, lookupLevel, if_pos rfl]
      · rw [lookupLevel, if_neg hk', lookupLevel, if_neg hk']
        exact ih

theorem levelKeys_eraseLevel_sublist (ls : List (Rat × List Order)) (p : Rat) :
    (levelKeys (eraseLevel ls p)).Sublist (levelKeys ls) := by
  induction ls with
  | nil => simp [eraseLevel]
  | cons hd tl ih =>
    obtain ⟨k, qk⟩ := hd
    by_cases hk : k = p
    · subst hk
      rw [eraseLevel, if_pos rfl]
      exact (List.sublist_cons_self _ _)
    · rw [eraseLevel, if_neg hk]
      simp only [levelKeys, List.map_cons]
      exact List.Sublist.cons₂ _ ih

theorem lookupLevel_eraseLevel_self {ls : List (Rat × List Order)} {p : Rat}
    (hnd : (levelKeys ls).Nodup) : lookupLevel (eraseLevel ls p) p = none := by
  induction ls with
  | nil => simp [eraseLevel, lookupLevel]
  | cons hd tl ih =>
    obtain ⟨k, qk⟩ := hd
    simp only [levelKeys, List.map_cons, List.nodup_cons] at hnd
    by_cases hk : k = p
    · subst hk
      rw [eraseLevel, if_pos rfl]
      exact lookupLevel_eq_none hnd.1
    · rw [eraseLevel, if_neg hk, lookupLevel, if_neg hk]
      exact ih hnd.2

theorem mem_levelKeys_eraseLevel {ls : List (Rat × List Order)} {p p' : Rat}
    (h : p' ≠ p) : p' ∈ levelKeys (eraseLevel ls p) ↔ p' ∈ levelKeys ls := by
  rw [← lookupLevel_isSome_iff, ← lookupLevel_isSome_iff, lookupLevel_eraseLevel_ne h]

theorem lookupLevel_appendLevel_self (ls : List (Rat × List Order)) (p : Rat) (o : Order) :
    lookupLevel (appendLevel ls p o) p = some ((lookupLevel ls p).getD [] ++ [o]) := by
  induction ls with
  | nil => simp [appendLevel, lookupLevel]
  | cons hd tl ih =>
    obtain ⟨k, qk⟩ := hd
    by_cases hk : k = p
    · subst hk
      rw [appendLevel, if_pos rfl, lookupLevel, if_pos rfl, lookupLevel, if_pos rfl]
      simp
    · rw [appendLevel, if_neg hk, lookupLevel, if_neg hk, lookupLevel, if_neg hk]
      exact ih

theorem lookupLevel_appendLevel_ne {ls : List (Rat × List Order)} {p p' : Rat}
    {o : Order} (h : p' ≠ p) :
    lookupLevel (appendLevel ls p o) p' = lookupLevel ls p' := by
  induction ls with
  | nil => simp [appendLevel, lookupLevel, if_neg (fun hh : p = p' => h hh.symm)]
  | cons hd tl ih =>
    obtain ⟨k, qk⟩ := hd
    by_cases hk : k = p
    · subst hk
      rw [appendLevel, if_pos rfl, lookupLevel, if_neg (fun hh => h hh.symm),
        lookupLevel, if_neg (fun hh => h hh.symm)]
    · rw [appendLevel, if_neg hk]
      by_cases hk' : k = p'
      · subst hk'
        rw [lookupLevel, if_pos rfl, lookupLevel, if_pos rfl]
      · rw [lookupLevel, if_neg hk', lookupLevel, if_neg hk']
        exact ih

theorem levelKeys_appendLevel_present {ls : List (Rat × List Order)} {p : Rat}
    {o : Order} (h : p ∈ levelKeys ls) :
    levelKeys (appendLevel ls p o) = levelKeys ls := by
  induction ls with
  | nil => simp [levelKeys] at h
  | cons hd tl ih =>
    obtain ⟨k, qk⟩ := hd
    by_cases hk : k = p
    · subst hk
      rw [appendLevel, if_pos rfl]
      simp [levelKeys]
    · rw [appendLevel, if_neg hk]
      simp only [levelKeys, List.map_cons] at h ⊢
      rcases List.mem_cons.1 h with h' | h'
      · exact absurd h'.symm hk
      · simp only [levelKeys] at ih
        rw [ih h']

theorem levelKeys_appendLevel_absent {ls : List (Rat × List Order)} {p : Rat}
    {o : Order} (h : p ∉ levelKeys ls) :
    levelKeys (appendLevel ls p o) = levelKeys ls ++ [p] := by
  induction ls with
  | nil => simp [appendLevel, levelKeys]
  | cons hd tl ih =>
    obtain ⟨k, qk⟩ := hd
    simp only [levelKeys, List.map_cons, List.mem_cons] at h
    push_neg at h
    rw [appendLevel, if_neg (fun hh : k = p => h.1 hh.symm)]
    simp only [levelKeys, List.map_cons, List.cons_append]
    simp only [levelKeys] at ih
    rw [ih h.2]

theorem mem_appendLevel {ls : List (Rat × List Order)} {p : Rat} {o : Order}
    {pq : Rat × List Order} (h : pq ∈ appendLevel ls p o) :
    pq ∈ ls ∨ ∃ q0, pq = (p, q0 ++ [o]) ∧ (q0 = [] ∨ lookupLevel ls p = some q0) := by
  induction ls with
  | nil =>
    simp only [appendLevel] at h
    rcases List.mem_cons.1 h with h | h
    · exact Or.inr ⟨[], by simp [h], Or.inl rfl⟩
    · simp at h
  | cons hd tl ih =>
    obtain ⟨k, qk⟩ := hd
    by_cases hk : k = p
    · subst hk
      rw [appendLevel, if_pos rfl] at h
      rcases List.mem_cons.1 h with h | h
      · exact Or.inr ⟨qk, by simp [h], Or.inr (by rw [lookupLevel, if_pos rfl])⟩
      · exact Or.inl (List.mem_cons_of_mem _ h)
    · rw [appendLevel, if_neg hk] at h
      rcases List.mem_cons.1 h with h | h
      · exact Or.inl (by simp [h])
      · rcases ih h with h' | ⟨q0, heq, hq0⟩
        · exact Or.inl (List.mem_cons_of_mem _ h')
        · refine Or.inr ⟨q0, heq, ?_⟩
          rcases hq0 with h0 | h0
          · exact Or.inl h0
          · exact Or.inr (by rw [lookupLevel, if_neg hk]; exact h0)

theorem mem_insertKey {k m : Rat} {h : List Rat} :
    m ∈ insertKey k h ↔ m = k ∨ m ∈ h := by
  induction h with
  | nil => simp [insertKey]
  | cons x rest ih =>
    rw [insertKey]
    by_cases hx : k ≤ x
    · rw [if_pos hx]
      simp [List.mem_cons]
    · rw [if_neg hx]
      simp only [List.mem_cons, ih]
      tauto

theorem insertKey_sorted {k : Rat} {h : List Rat}
    (hs : h.Pairwise (· < ·)) (hk : k ∉ h) :
    (insertKey k h).Pairwise (· < ·) := by
  induction h with
  | nil => simp [insertKey]
  | cons x rest ih =>
    rw [List.pairwise_cons] at hs
    simp only [List.mem_cons] at hk
    push_neg at hk
    rw [insertKey]
    by_cases hx : k ≤ x
    · rw [if_pos hx]
      have hkx : k < x := lt_of_le_of_ne hx hk.1
      refine List.pairwise_cons.2 ⟨?_, List.pairwise_cons.2 ⟨hs.1, hs.2⟩⟩
      intro m hm
      rcases List.mem_cons.1 hm with rfl | hm
      · exact hkx
      · exact hkx.trans (hs.1 m hm)
    · rw [if_neg hx]
      refine List.pairwise_cons.2 ⟨?_, ih hs.2 hk.2⟩
      intro m hm
      rcases mem_insertKey.1 hm with rfl | hm
      · exact lt_of_not_le hx
      · exact hs.1 m hm

theorem sorted_head_le {k : Rat} {rest : List Rat}
    (hs : (k :: rest).Pairwise (· < ·)) : ∀ m ∈ k :: rest, k ≤ m := by
  intro m hm
  rcases List.mem_cons.1 hm with rfl | hm
  · exact le_refl m
  · exact le_of_lt ((List.pairwise_cons.1 hs).1 m hm)

theorem keyOf_priceOfKey (b : Bool) (k : Rat) : keyOf b (priceOfKey b k) = k := by
  cases b <;> simp [keyOf, priceOfKey]

theorem priceOfKey_keyOf (b : Bool) (p : Rat) : priceOfKey b (keyOf b p) = p := by
  cases b <;> simp [keyOf, priceOfKey]

/-! ### C1 — determinism of a run -/

/-- C1: for every fixed seed, replay event sequence, and strategy, two runs of
the embedded scheduler produce equal output sequences of latency samples,
arrival timestamps, and trades.  The embedding threads the single seeded
generator (and all other state) explicitly, so a run is a pure function of the
seed and its inputs, and the two-run equality holds definitionally. -/
theorem determinism_two_runs {σ : Type} (cfg : NetworkConfig) (seed : Nat)
    (stream : List MarketEvent) (decide : σ → MatchingEngine → Option Order × σ)
    (s0 : σ) :
    runOutputs (runSimulation cfg seed stream decide s0) =
      runOutputs (runSimulation cfg seed stream decide s0) := rfl

/-! ### C3 — end-to-end demo scenario -/

/-- C3: from an empty engine, sells #1 100@101 (t=1000), #2 50@101 (t=1001),
#3 200@102 (t=1002) all rest; `queue_position(2)` then answers 100; the buy
#99 120@101.5 (t=2000) executes exactly two trades, 100@101 against maker #1
(removed fully filled) then 20@101 against maker #2 (left with open quantity
30, status PARTIAL), and returns FILLED. -/
theorem demo_scenario :
    demoBook.map (fun e => OrderBookSide.get_queue_position e.asks 2) = some 100
  ∧ demoBook.bind (fun e => MatchingEngine.process_order e demoBuy99) =
      some (⟨{ is_bid := true, price_heap := [], price_levels := [], orders := [] },
             { is_bid := false, price_heap := [101, 102],
               price_levels :=
                 [(101, [{ id := 2, side := Side.sell, price := 101, qty := 50,
                           timestamp := 1001, filled_qty := 20, status := OrdStatus.PART }]),
                  (102, [{ id := 3, side := Side.sell, price := 102, qty := 200,
                           timestamp := 1002, filled_qty := 0, status := OrdStatus.OPEN }])],
               orders := [(1, 101), (2, 101), (3, 102)] },
             [{ price := 101, qty := 100, maker_order_id := 1, taker_order_id := 99 },
              { price := 101, qty := 20, maker_order_id := 2, taker_order_id := 99 }]⟩,
            OrderResult.FILLED)
  ∧ Order.open_qty { id := 2, side := Side.sell, price := 101, qty := 50,
                     timestamp := 1001, filled_qty := 20, status := OrdStatus.PART } = 30 := by
  refine ⟨by decide, by decide, by decide⟩

/-! ### C7 — no invalid-order rejection exists in the code -/

/-- C7 (divergence witness): `process_order` has no invalid-order signal at
all — its only outcomes are RESTING, FILLED or a crash.  An order with
quantity 0 is reported FILLED (leaving the engine untouched), and an order
with a negative price and positive quantity happily rests in the book. -/
theorem no_invalid_order_guard :
    MatchingEngine.process_order emptyEngine
        { id := 7, side := Side.buy, price := 10, qty := 0, timestamp := 5 } =
      some (emptyEngine, OrderResult.FILLED)
  ∧ (MatchingEngine.process_order emptyEngine
        { id := 8, side := Side.buy, price := -3, qty := 5, timestamp := 5 }).map
        (fun p => (p.2, p.1.bids.price_heap)) =
      some (OrderResult.RESTING, [3])
  ∧ ∀ r : OrderResult, r = OrderResult.RESTING ∨ r = OrderResult.FILLED := by
  refine ⟨by decide, by decide, fun r => by cases r <;> simp⟩

/-! ### C8 — the drop signal is not honoured by the scheduler -/

/-- C8 (divergence witness): with drop probability 1.0 the latency model
returns the drop signal `-1.0`, yet the runner still schedules an
ORDER_ARRIVAL (at `current_time - 1000`) and the strategy's order #999 is
delivered to `process_order` and rests in the book. -/
theorem drop_not_discarded :
    dropRun.latencies = [-1]
  ∧ dropRun.arrivals = [0]
  ∧ dropRun.delivered = [999]
  ∧ lookupRef dropRun.engine.bids.orders 999 = some 100.05 := by
  refine ⟨by decide, by decide, by decide, by decide⟩

/-! ### C9 — structure of one latency sample -/

/-- C9: each `next_latency_ms` call first draws one uniform variate and drops
iff it falls below the configured drop probability (a Bernoulli trial); a drop
returns the distinguished `-1.0` having consumed exactly one draw; otherwise
one gamma draw with shape 2 and the configured jitter scale is consumed and
the call returns base latency + jitter, a nonnegative value distinct from the
drop signal. -/
theorem latency_sample_structure (cfg : NetworkConfig) (r : Rng)
    (hbase : 0 ≤ cfg.base_latency_ms) (hscale : 0 ≤ cfg.jitter_scale) :
    ((nextLatencyMs cfg r).1 = -1 ↔ (rngUniform r).1 < cfg.drop_probability)
  ∧ ((rngUniform r).1 < cfg.drop_probability →
      nextLatencyMs cfg r = (-1, { r with counter := r.counter + 1 }))
  ∧ (¬(rngUniform r).1 < cfg.drop_probability →
      (nextLatencyMs cfg r).1 =
        cfg.base_latency_ms + (rngGamma 2 cfg.jitter_scale (rngUniform r).2).1
      ∧ (nextLatencyMs cfg r).2 = { r with counter := r.counter + 2 }
      ∧ 0 ≤ (nextLatencyMs cfg r).1) := by
  have hgam : 0 ≤ (rngGamma 2 cfg.jitter_scale (rngUniform r).2).1 := by
    have hmix : (0 : Rat) ≤ ((rngMix r.seed (r.counter + 1) : Int) : Rat) / 1000003 := by
      positivity
    have h2 : (0 : Rat) ≤ 2 + ((rngMix r.seed (r.counter + 1) : Int) : Rat) / 1000003 := by
      linarith
    exact mul_nonneg hscale h2
  by_cases hd : (rngUniform r).1 < cfg.drop_probability
  · have heq : nextLatencyMs cfg r = (-1, { r with counter := r.counter + 1 }) := by
      simp only [nextLatencyMs]
      rw [if_pos hd]
      rfl
    rw [heq]
    exact ⟨iff_of_true rfl hd, fun _ => rfl, fun h => absurd hd h⟩
  · have heq : nextLatencyMs cfg r =
        (cfg.base_latency_ms + (rngGamma 2 cfg.jitter_scale (rngUniform r).2).1,
         { r with counter := r.counter + 2 }) := by
      simp only [nextLatencyMs]
      rw [if_neg hd]
      rfl
    have hnn : 0 ≤ cfg.base_latency_ms + (rngGamma 2 cfg.jitter_scale (rngUniform r).2).1 :=
      add_nonneg hbase hgam
    rw [heq]
    refine ⟨iff_of_false (fun h => ?_) hd, fun h => absurd h hd, fun _ => ⟨rfl, rfl, hnn⟩⟩
    have h' : cfg.base_latency_ms + (rngGamma 2 cfg.jitter_scale (rngUniform r).2).1 = -1 := h
    rw [h'] at hnn
    norm_num at hnn

/-- Witness for C9 at a concrete configuration and generator state: with drop
probability pinned at 1, the sample is the drop signal and exactly one draw is
consumed. -/
theorem latency_sample_structure_witness :
    nextLatencyMs dropConfig { seed := 42, counter := 0 } = (-1, { seed := 42, counter := 1 }) :=
  (latency_sample_structure dropConfig { seed := 42, counter := 0 }
    (by norm_num [dropConfig]) (by norm_num [dropConfig])).2.1 (by decide)

/-! ### C10 — CANCEL is applied to the most recently added order -/

/-- C10: a CANCEL event whose price level holds a non-empty queue on the named
side rewrites only that queue, reducing the total quantity of its tail order
(the most recently added) by the cancel quantity whenever that order's open
quantity covers it; the event's `order_id` plays no role, and every other
order, level, heap entry and id-map entry of the book is untouched (as the
record update shows). -/
theorem cancel_targets_tail (e : MatchingEngine) (ev : MarketEvent)
    (queue : List Order) (target : Order)
    (hkind : ev.event_type = MKind.CANCEL) :
    (∀ s : OrderBookSide, lookupLevel s.price_levels ev.price = some queue →
      queue.getLast? = some target → ev.qty ≤ Order.open_qty target →
      cancelOnSide s ev.price ev.qty =
        { s with price_levels := (setLevel s.price_levels ev.price
            (queue.dropLast ++ [{ target with qty := target.qty - ev.qty }])) })
  ∧ applyMarketEvent e ev =
      some (if ev.side = Side.buy
            then { e with bids := cancelOnSide e.bids ev.price ev.qty }
            else { e with asks := cancelOnSide e.asks ev.price ev.qty })
  ∧ (∀ i : Nat, applyMarketEvent e { ev with order_id := i } = applyMarketEvent e ev) := by
  refine ⟨?_, ?_, ?_⟩
  · intro s hlk hlast hqty
    simp only [cancelOnSide, hlk, hlast]
    rw [if_pos hqty]
  · simp only [applyMarketEvent, hkind]
    by_cases hside : ev.side = Side.buy
    · rw [if_pos hside, if_pos hside]
    · rw [if_neg hside, if_neg hside]
  · intro i
    simp only [applyMarketEvent, hkind]

/-- Witness for C10: cancelling 3 on the stale book's ask level 101 rewrites
only the tail (and only) order, 5 ↦ 2 open. -/
theorem cancel_targets_tail_witness :
    cancelOnSide staleBook.asks (101 : Rat) 3 =
      { staleBook.asks with price_levels := (setLevel staleBook.asks.price_levels 101
          (([{ id := 2, side := Side.sell, price := 101, qty := 5, timestamp := 1001,
               filled_qty := 0, status := OrdStatus.OPEN }] : List Order).dropLast ++
           [{ id := 2, side := Side.sell, price := 101, qty := 5 - 3, timestamp := 1001,
              filled_qty := 0, status := OrdStatus.OPEN }])) } :=
  (cancel_targets_tail staleBook
      { timestamp := 2000, event_type := MKind.CANCEL, side := Side.sell, price := 101,
        qty := 3, order_id := 500 }
      [{ id := 2, side := Side.sell, price := 101, qty := 5, timestamp := 1001,
         filled_qty := 0, status := OrdStatus.OPEN }]
      { id := 2, side := Side.sell, price := 101, qty := 5, timestamp := 1001,
        filled_qty := 0, status := OrdStatus.OPEN }
      rfl).1 staleBook.asks (by decide) (by decide) (by decide)

/-! ### C6 — queue position: stale ids get silent wrong answers -/

/-- C6 counterexample: after sells #1 (10@101, t=1000) and #2 (5@101, t=1001)
and a buy that fully fills and removes #1, id 1 is still known to the ask
side's `orders` dict, the level queue holds only the later-arrived #2, yet
`get_queue_position(1)` answers 5 — the open quantity of an order that never
stood ahead of #1 — instead of 0 or a not-found signal. -/
theorem queue_position_stale_id :
    lookupRef staleBook.asks.orders 1 = some 101
  ∧ lookupLevel staleBook.asks.price_levels 101 =
      some [{ id := 2, side := Side.sell, price := 101, qty := 5, timestamp := 1001,
              filled_qty := 0, status := OrdStatus.OPEN }]
  ∧ (1000 : Int) < 1001
  ∧ OrderBookSide.get_queue_position staleBook.asks 1 = 5
  ∧ ¬ OrderBookSide.get_queue_position staleBook.asks 1 = 0
  ∧ ¬ OrderBookSide.get_queue_position staleBook.asks 1 = -1 := by
  refine ⟨by decide, by decide, by decide, by decide, by decide, by decide⟩

/-- Sum of `open_qty` over the strict predecessors when the target order is
present in the queue. -/
theorem sumAhead_prefix (oid : Nat) (pre post : List Order) (o : Order)
    (ho : o.id = oid) (hpre : ∀ x ∈ pre, x.id ≠ oid) :
    sumAhead oid (pre ++ o :: post) = (pre.map Order.open_qty).sum := by
  induction pre with
  | nil => simp [sumAhead, ho]
  | cons x rest ih =>
    have hx : x.id ≠ oid := hpre x (List.mem_cons_self _ _)
    simp only [List.cons_append, sumAhead, if_neg hx, List.map_cons, List.sum_cons]
    exact congrArg (fun t => Order.open_qty x + t)
      (ih (fun y hy => hpre y (List.mem_cons_of_mem _ hy)))

/-- C6 (amended): for an order that is currently resting in its price level's
queue (and registered at that price in the side's `orders` dict),
`queue_position` returns the sum of open quantities of the orders strictly
ahead of it in the queue — a nonnegative value whenever those open quantities
are nonnegative — and for an id unknown to the side it returns the distinct
not-found signal `-1`. -/
theorem queue_position_correct (s : OrderBookSide) (oid : Nat) (p : Rat)
    (pre post : List Order) (o : Order)
    (href : lookupRef s.orders oid = some p)
    (hlvl : lookupLevel s.price_levels p = some (pre ++ o :: post))
    (ho : o.id = oid) (hpre : ∀ x ∈ pre, x.id ≠ oid) :
    OrderBookSide.get_queue_position s oid = (pre.map Order.open_qty).sum
  ∧ ((∀ x ∈ pre, 0 ≤ Order.open_qty x) → 0 ≤ OrderBookSide.get_queue_position s oid)
  ∧ (∀ (s' : OrderBookSide) (j : Nat), lookupRef s'.orders j = none →
      OrderBookSide.get_queue_position s' j = -1) := by
  have hmain : OrderBookSide.get_queue_position s oid = (pre.map Order.open_qty).sum := by
    simp only [OrderBookSide.get_queue_position, href, hlvl, Option.getD_some]
    exact sumAhead_prefix oid pre post o ho hpre
  refine ⟨hmain, fun hnn => ?_, fun s' j hj => ?_⟩
  · rw [hmain]
    apply List.sum_nonneg
    intro x hx
    obtain ⟨y, hy, rfl⟩ := List.mem_map.1 hx
    exact hnn y hy
  · simp [OrderBookSide.get_queue_position, hj]

/-- Witness for C6 (amended) on a concrete two-order level: order #2 has the
open 10 of order #1 ahead of it, and an unknown id yields `-1`. -/
theorem queue_position_correct_witness :
    OrderBookSide.get_queue_position
      { is_bid := false, price_heap := [101],
        price_levels := [(101,
          [{ id := 1, side := Side.sell, price := 101, qty := 10, timestamp := 1000,
             filled_qty := 0, status := OrdStatus.OPEN },
           { id := 2, side := Side.sell, price := 101, qty := 5, timestamp := 1001,
             filled_qty := 0, status := OrdStatus.OPEN }])],
        orders := [(1, 101), (2, 101)] } 2 =
      (([{ id := 1, side := Side.sell, price := 101, qty := 10, timestamp := 1000,
           filled_qty := 0, status := OrdStatus.OPEN }] : List Order).map Order.open_qty).sum :=
  (queue_position_correct _ 2 101
      [{ id := 1, side := Side.sell, price := 101, qty := 10, timestamp := 1000,
         filled_qty := 0, status := OrdStatus.OPEN }]
      []
      { id := 2, side := Side.sell, price := 101, qty := 5, timestamp := 1001,
        filled_qty := 0, status := OrdStatus.OPEN }
      (by decide) (by decide) (by decide) (by decide)).1

/-! ### C4 — price-time priority at one level -/

/-- C4: with two orders resting at the same price on the same side —
quantities `a` (arrived first, id 1) then `b` (arrived second, id 2) — an
incoming opposing order whose limit crosses the price and whose quantity `q`
is strictly less than `a + b` fully consumes the first-arrived order before
matching any quantity of the second: the trade log is exactly one trade
`q@p` against maker 1 when `q ≤ a`, and otherwise `a@p` against maker 1
followed by `(q-a)@p` against maker 2; in particular, whenever maker 2 is
touched at all, the head of the chronological trade log is the full-quantity
trade against maker 1. -/
theorem fifo_price_time_priority (side : Side) (a b q : Int) (p l : Rat)
    (ha : 0 < a) (hb : 0 < b) (hq : 0 < q) (hab : q < a + b)
    (hcross : if side = Side.sell then p ≤ l else l ≤ p) :
    ∃ e1 e2 e3 : MatchingEngine,
      MatchingEngine.process_order emptyEngine (fifoRest1 side a p) =
        some (e1, OrderResult.RESTING)
    ∧ MatchingEngine.process_order e1 (fifoRest2 side b p) =
        some (e2, OrderResult.RESTING)
    ∧ MatchingEngine.process_order e2
        (fifoTaker (if side = Side.sell then Side.buy else Side.sell) q l) =
        some (e3, OrderResult.FILLED)
    ∧ e3.trades = (if q ≤ a
        then [{ price := p, qty := q, maker_order_id := 1, taker_order_id := 99 }]
        else [{ price := p, qty := a, maker_order_id := 1, taker_order_id := 99 },
              { price := p, qty := q - a, maker_order_id := 2, taker_order_id := 99 }])
    ∧ ((∃ t ∈ e3.trades, t.maker_order_id = 2) →
        e3.trades.head? =
          some { price := p, qty := a, maker_order_id := 1, taker_order_id := 99 }) := by
  cases side with
  | sell =>
    rw [if_pos rfl] at hcross
    rcases lt_trichotomy q a with hqa | hqa | hqa
    · refine ⟨fifoBook1 Side.sell a p, fifoBook2 Side.sell a b p,
        { bids := { is_bid := true, price_heap := [], price_levels := [], orders := [] },
          asks := { is_bid := false, price_heap := [p],
                    price_levels := [(p, [{ id := 1, side := Side.sell, price := p, qty := a,
                                            timestamp := 1000, filled_qty := q,
                                            status := OrdStatus.PART },
                                          fifoRest2 Side.sell b p])],
                    orders := [(1, p), (2, p)] },
          trades := [{ price := p, qty := q, maker_order_id := 1, taker_order_id := 99 }] },
        ?_, ?_, ?_, ?_, ?_⟩
      · simp [MatchingEngine.process_order, matchLoop, emptyEngine, sideOrderCount,
          OrderBookSide.best_price, fifoBook1, fifoBook2, fifoRest1, Order.open_qty, ha,
          OrderBookSide.add, appendLevel, insertKey, keyOf, lookupLevel, setRef]
      · simp [MatchingEngine.process_order, matchLoop, sideOrderCount,
          OrderBookSide.best_price, fifoBook1, fifoBook2, fifoRest1, fifoRest2, Order.open_qty, hb,
          OrderBookSide.add, appendLevel, insertKey, keyOf, lookupLevel, setRef]
      · have hmin : min q a = q := min_eq_left hqa.le
        have hne : ¬(a - q = 0) := by omega
        simp [MatchingEngine.process_order, matchLoop, sideOrderCount,
          OrderBookSide.best_price, fifoBook1, fifoBook2, fifoRest1, fifoRest2, fifoTaker, Order.open_qty, hq, hcross,
          hmin, hne, MatchingEngine.execute_trade, setFill, priceOfKey, setLevel, lookupLevel,
          OrderBookSide.add, appendLevel, insertKey, keyOf, setRef]
      · rw [if_pos hqa.le]
      · rintro ⟨t, ht, h2⟩
        simp only [List.mem_singleton] at ht
        subst ht
        simp at h2
    · subst hqa
      refine ⟨fifoBook1 Side.sell q p, fifoBook2 Side.sell q b p,
        { bids := { is_bid := true, price_heap := [], price_levels := [], orders := [] },
          asks := { is_bid := false, price_heap := [p],
                    price_levels := [(p, [fifoRest2 Side.sell b p])],
                    orders := [(1, p), (2, p)] },
          trades := [{ price := p, qty := q, maker_order_id := 1, taker_order_id := 99 }] },
        ?_, ?_, ?_, ?_, ?_⟩
      · simp [MatchingEngine.process_order, matchLoop, emptyEngine, sideOrderCount,
          OrderBookSide.best_price, fifoBook1, fifoBook2, fifoRest1, Order.open_qty, hq,
          OrderBookSide.add, appendLevel, insertKey, keyOf, lookupLevel, setRef]
      · simp [MatchingEngine.process_order, matchLoop, sideOrderCount,
          OrderBookSide.best_price, fifoBook1, fifoBook2, fifoRest1, fifoRest2, Order.open_qty, hb,
          OrderBookSide.add, appendLevel, insertKey, keyOf, lookupLevel, setRef]
      · simp [MatchingEngine.process_order, matchLoop, sideOrderCount,
          OrderBookSide.best_price, fifoBook1, fifoBook2, fifoRest1, fifoRest2, fifoTaker, Order.open_qty, hq, hcross,
          MatchingEngine.execute_trade, setFill, priceOfKey, setLevel, lookupLevel,
          OrderBookSide.remove_filled_levels, removeFilledLoop, eraseLevel,
          OrderBookSide.add, appendLevel, insertKey, keyOf, setRef]
      · rw [if_pos le_rfl]
      · rintro ⟨t, ht, h2⟩
        simp only [List.mem_singleton] at ht
        subst ht
        simp at h2
    · refine ⟨fifoBook1 Side.sell a p, fifoBook2 Side.sell a b p,
        { bids := { is_bid := true, price_heap := [], price_levels := [], orders := [] },
          asks := { is_bid := false, price_heap := [p],
                    price_levels := [(p, [{ id := 2, side := Side.sell, price := p, qty := b,
                                            timestamp := 1001, filled_qty := q - a,
                                            status := OrdStatus.PART }])],
                    orders := [(1, p), (2, p)] },
          trades := [{ price := p, qty := a, maker_order_id := 1, taker_order_id := 99 },
                     { price := p, qty := q - a, maker_order_id := 2, taker_order_id := 99 }] },
        ?_, ?_, ?_, ?_, ?_⟩
      · simp [MatchingEngine.process_order, matchLoop, emptyEngine, sideOrderCount,
          OrderBookSide.best_price, fifoBook1, fifoBook2, fifoRest1, Order.open_qty, ha,
          OrderBookSide.add, appendLevel, insertKey, keyOf, lookupLevel, setRef]
      · simp [MatchingEngine.process_order, matchLoop, sideOrderCount,
          OrderBookSide.best_price, fifoBook1, fifoBook2, fifoRest1, fifoRest2, Order.open_qty, hb,
          OrderBookSide.add, appendLevel, insertKey, keyOf, lookupLevel, setRef]
      · have hmin1 : min q a = a := min_eq_right hqa.le
        have hopen : 0 < q - a := by omega
        have hmin2 : min (q - a) b = q - a := min_eq_left (by omega)
        have hne2 : ¬(b - (q - a) = 0) := by omega
        have hz : q - (a + (q - a)) = 0 := by ring
        simp [MatchingEngine.process_order, matchLoop, sideOrderCount,
          OrderBookSide.best_price, fifoBook1, fifoBook2, fifoRest1, fifoRest2, fifoTaker, Order.open_qty, hq, hcross,
          hmin1, hopen, hmin2, hne2, hz,
          MatchingEngine.execute_trade, setFill, priceOfKey, setLevel, lookupLevel,
          OrderBookSide.remove_filled_levels, removeFilledLoop, eraseLevel,
          OrderBookSide.add, appendLevel, insertKey, keyOf, setRef]
      · rw [if_neg (not_le.2 hqa)]
      · intro _
        rfl
  | buy =>
    rw [if_neg (by decide)] at hcross
    rcases lt_trichotomy q a with hqa | hqa | hqa
    · refine ⟨fifoBook1 Side.buy a p, fifoBook2 Side.buy a b p,
        { bids := { is_bid := true, price_heap := [-p],
                    price_levels := [(p, [{ id := 1, side := Side.buy, price := p, qty := a,
                                            timestamp := 1000, filled_qty := q,
                                            status := OrdStatus.PART },
                                          fifoRest2 Side.buy b p])],
                    orders := [(1, p), (2, p)] },
          asks := { is_bid := false, price_heap := [], price_levels := [], orders := [] },
          trades := [{ price := p, qty := q, maker_order_id := 1, taker_order_id := 99 }] },
        ?_, ?_, ?_, ?_, ?_⟩
      · simp [MatchingEngine.process_order, matchLoop, emptyEngine, sideOrderCount,
          OrderBookSide.best_price, fifoBook1, fifoBook2, fifoRest1, Order.open_qty, ha,
          OrderBookSide.add, appendLevel, insertKey, keyOf, lookupLevel, setRef]
      · simp [MatchingEngine.process_order, matchLoop, sideOrderCount,
          OrderBookSide.best_price, fifoBook1, fifoBook2, fifoRest1, fifoRest2, Order.open_qty, hb,
          OrderBookSide.add, appendLevel, insertKey, keyOf, lookupLevel, setRef]
      · have hmin : min q a = q := min_eq_left hqa.le
        have hne : ¬(a - q = 0) := by omega
        simp [MatchingEngine.process_order, matchLoop, sideOrderCount,
          OrderBookSide.best_price, fifoBook1, fifoBook2, fifoRest1, fifoRest2, fifoTaker, Order.open_qty, hq, hcross,
          hmin, hne, MatchingEngine.execute_trade, setFill, priceOfKey, setLevel, lookupLevel,
          OrderBookSide.add, appendLevel, insertKey, keyOf, setRef]
      · rw [if_pos hqa.le]
      · rintro ⟨t, ht, h2⟩
        simp only [List.mem_singleton] at ht
        subst ht
        simp at h2
    · subst hqa
      refine ⟨fifoBook1 Side.buy q p, fifoBook2 Side.buy q b p,
        { bids := { is_bid := true, price_heap := [-p],
                    price_levels := [(p, [fifoRest2 Side.buy b p])],
                    orders := [(1, p), (2, p)] },
          asks := { is_bid := false, price_heap := [], price_levels := [], orders := [] },
          trades := [{ price := p, qty := q, maker_order_id := 1, taker_order_id := 99 }] },
        ?_, ?_, ?_, ?_, ?_⟩
      · simp [MatchingEngine.process_order, matchLoop, emptyEngine, sideOrderCount,
          OrderBookSide.best_price, fifoBook1, fifoBook2, fifoRest1, Order.open_qty, hq,
          OrderBookSide.add, appendLevel, insertKey, keyOf, lookupLevel, setRef]
      · simp [MatchingEngine.process_order, matchLoop, sideOrderCount,
          OrderBookSide.best_price, fifoBook1, fifoBook2, fifoRest1, fifoRest2, Order.open_qty, hb,
          OrderBookSide.add, appendLevel, insertKey, keyOf, lookupLevel, setRef]
      · simp [MatchingEngine.process_order, matchLoop, sideOrderCount,
          OrderBookSide.best_price, fifoBook1, fifoBook2, fifoRest1, fifoRest2, fifoTaker, Order.open_qty, hq, hcross,
          MatchingEngine.execute_trade, setFill, priceOfKey, setLevel, lookupLevel,
          OrderBookSide.remove_filled_levels, removeFilledLoop, eraseLevel,
          OrderBookSide.add, appendLevel, insertKey, keyOf, setRef]
      · rw [if_pos le_rfl]
      · rintro ⟨t, ht, h2⟩
        simp only [List.mem_singleton] at ht
        subst ht
        simp at h2
    · refine ⟨fifoBook1 Side.buy a p, fifoBook2 Side.buy a b p,
        { bids := { is_bid := true, price_heap := [-p],
                    price_levels := [(p, [{ id := 2, side := Side.buy, price := p, qty := b,
                                            timestamp := 1001, filled_qty := q - a,
                                            status := OrdStatus.PART }])],
                    orders := [(1, p), (2, p)] },
          asks := { is_bid := false, price_heap := [], price_levels := [], orders := [] },
          trades := [{ price := p, qty := a, maker_order_id := 1, taker_order_id := 99 },
                     { price := p, qty := q - a, maker_order_id := 2, taker_order_id := 99 }] },
        ?_, ?_, ?_, ?_, ?_⟩
      · simp [MatchingEngine.process_order, matchLoop, emptyEngine, sideOrderCount,
          OrderBookSide.best_price, fifoBook1, fifoBook2, fifoRest1, Order.open_qty, ha,
          OrderBookSide.add, appendLevel, insertKey, keyOf, lookupLevel, setRef]
      · simp [MatchingEngine.process_order, matchLoop, sideOrderCount,
          OrderBookSide.best_price, fifoBook1, fifoBook2, fifoRest1, fifoRest2, Order.open_qty, hb,
          OrderBookSide.add, appendLevel, insertKey, keyOf, lookupLevel, setRef]
      · have hmin1 : min q a = a := min_eq_right hqa.le
        have hopen : 0 < q - a := by omega
        have hmin2 : min (q - a) b = q - a := min_eq_left (by omega)
        have hne2 : ¬(b - (q - a) = 0) := by omega
        have hz : q - (a + (q - a)) = 0 := by ring
        simp [MatchingEngine.process_order, matchLoop, sideOrderCount,
          OrderBookSide.best_price, fifoBook1, fifoBook2, fifoRest1, fifoRest2, fifoTaker, Order.open_qty, hq, hcross,
          hmin1, hopen, hmin2, hne2, hz,
          MatchingEngine.execute_trade, setFill, priceOfKey, setLevel, lookupLevel,
          OrderBookSide.remove_filled_levels, removeFilledLoop, eraseLevel,
          OrderBookSide.add, appendLevel, insertKey, keyOf, setRef]
      · rw [if_neg (not_le.2 hqa)]
      · intro _
        rfl

/-- Witness for C4 on concrete numbers: resting sells 10 then 7 at price 5,
incoming buy of 12 at limit 6: trades `10@5` on maker 1 then `2@5` on
maker 2. -/
theorem fifo_price_time_priority_witness :
    ∃ e1 e2 e3 : MatchingEngine,
      MatchingEngine.process_order emptyEngine (fifoRest1 Side.sell 10 5) =
        some (e1, OrderResult.RESTING)
    ∧ MatchingEngine.process_order e1 (fifoRest2 Side.sell 7 5) =
        some (e2, OrderResult.RESTING)
    ∧ MatchingEngine.process_order e2
        (fifoTaker (if Side.sell = Side.sell then Side.buy else Side.sell) 12 6) =
        some (e3, OrderResult.FILLED)
    ∧ e3.trades = (if (12 : Int) ≤ 10
        then [{ price := 5, qty := 12, maker_order_id := 1, taker_order_id := 99 }]
        else [{ price := 5, qty := 10, maker_order_id := 1, taker_order_id := 99 },
              { price := 5, qty := 12 - 10, maker_order_id := 2, taker_order_id := 99 }])
    ∧ ((∃ t ∈ e3.trades, t.maker_order_id = 2) →
        e3.trades.head? =
          some { price := 5, qty := 10, maker_order_id := 1, taker_order_id := 99 }) :=
  fifo_price_time_priority Side.sell 10 7 12 5 6 (by norm_num) (by norm_num) (by norm_num)
    (by norm_num) (by norm_num)

/-! ### Well-formedness machinery for the matching loop -/

theorem keyOf_inj {b : Bool} {p p' : Rat} (h : keyOf b p = keyOf b p') : p = p' := by
  cases b <;> simpa [keyOf] using h

theorem setFill_side (o : Order) (q : Int) : (setFill o q).side = o.side := rfl

theorem setFill_price (o : Order) (q : Int) : (setFill o q).price = o.price := rfl

theorem setFill_open (o : Order) (q : Int) :
    Order.open_qty (setFill o q) = Order.open_qty o - q := by
  simp [setFill, Order.open_qty]
  ring

theorem setFill_filled (o : Order) (q : Int) :
    (setFill o q).filled_qty = o.filled_qty + q := rfl

/-- Rewriting one (present) level with a non-empty queue of positive-open
orders preserves side well-formedness. -/
theorem setLevel_wf {s : OrderBookSide} (hwf : SideWF s) {p : Rat} {q : List Order}
    (hlk : (lookupLevel s.price_levels p).isSome) (hq : q ≠ [])
    (hpos : ∀ x ∈ q, 0 < Order.open_qty x) :
    SideWF { s with price_levels := setLevel s.price_levels p q } := by
  refine ⟨hwf.heap_sorted, ?_, ?_, ?_, ?_⟩
  · rw [levelKeys_setLevel]
    exact hwf.keys_nodup
  · intro pp
    rw [levelKeys_setLevel]
    exact hwf.heap_levels pp
  · intro pq hpq
    rcases mem_setLevel hpq with h | h
    · exact hwf.levels_ne pq h
    · rw [h]
      exact hq
  · intro pq hpq x hx
    rcases mem_setLevel hpq with h | h
    · exact hwf.open_pos pq h x hx
    · subst h
      exact hpos x hx

/-- The cleanup loop only ever erases level entries. -/
theorem removeFilledLoop_levels_subset (is_bid : Bool) :
    ∀ (heap : List Rat) (levels : List (Rat × List Order)) (pq : Rat × List Order),
      pq ∈ (removeFilledLoop is_bid heap levels).2 → pq ∈ levels := by
  intro heap
  induction heap with
  | nil => intro levels pq h; exact h
  | cons k rest ih =>
    intro levels pq h
    rw [removeFilledLoop] at h
    rcases hlook : lookupLevel levels (priceOfKey is_bid k) with _ | q
    · rw [hlook] at h
      exact mem_eraseLevel (ih _ _ h)
    · rcases q with _ | ⟨x, xs⟩
      · rw [hlook] at h
        exact mem_eraseLevel (ih _ _ h)
      · rw [hlook] at h
        exact h

/-- The cleanup loop does nothing when the top of the heap has a non-empty
queue. -/
theorem removeFilledLoop_noop {is_bid : Bool} {k : Rat} {rest : List Rat}
    {levels : List (Rat × List Order)} {x : Order} {xs : List Order}
    (hlk : lookupLevel levels (priceOfKey is_bid k) = some (x :: xs)) :
    removeFilledLoop is_bid (k :: rest) levels = (k :: rest, levels) := by
  rw [removeFilledLoop, hlk]

theorem remove_filled_levels_def (s : OrderBookSide) :
    OrderBookSide.remove_filled_levels s =
      { s with price_heap := (removeFilledLoop s.is_bid s.price_heap s.price_levels).1,
               price_levels := (removeFilledLoop s.is_bid s.price_heap s.price_levels).2 } := rfl

/-- Popping a fully filled maker (rewriting its level to the remaining queue
and running the lazy cleanup) preserves side well-formedness and only removes
heap entries. -/
theorem popStep_wf {s : OrderBookSide} (hwf : SideWF s) {k : Rat} {rest : List Rat}
    (hheap : s.price_heap = k :: rest) {maker : Order} {restQ : List Order}
    (hlk : lookupLevel s.price_levels (priceOfKey s.is_bid k) = some (maker :: restQ))
    (hpos : ∀ x ∈ restQ, 0 < Order.open_qty x) :
    SideWF (OrderBookSide.remove_filled_levels
      { s with price_levels := setLevel s.price_levels (priceOfKey s.is_bid k) restQ })
    ∧ (OrderBookSide.remove_filled_levels
        { s with price_levels := setLevel s.price_levels (priceOfKey s.is_bid k) restQ }).is_bid
        = s.is_bid
    ∧ (∀ m ∈ (OrderBookSide.remove_filled_levels
        { s with price_levels := setLevel s.price_levels (priceOfKey s.is_bid k) restQ }).price_heap,
        m ∈ s.price_heap) := by
  have hknotrest : k ∉ rest := by
    have hs := hwf.heap_sorted
    rw [hheap] at hs
    intro hmem
    exact absurd rfl (ne_of_lt ((List.pairwise_cons.1 hs).1 k hmem))
  cases restQ with
  | cons x xs =>
    have hlk1 : lookupLevel (setLevel s.price_levels (priceOfKey s.is_bid k) (x :: xs))
        (priceOfKey s.is_bid k) = some (x :: xs) := lookupLevel_setLevel_self hlk
    have hres : OrderBookSide.remove_filled_levels
        { s with price_levels := setLevel s.price_levels (priceOfKey s.is_bid k) (x :: xs) } =
        { s with price_levels := setLevel s.price_levels (priceOfKey s.is_bid k) (x :: xs) } := by
      rw [remove_filled_levels_def]
      dsimp only
      rw [hheap, removeFilledLoop_noop hlk1, ← hheap]
    rw [hres]
    refine ⟨setLevel_wf hwf (by simp [hlk]) (by simp) hpos, rfl, fun m hm => hm⟩
  | nil =>
    have hnd1 : (levelKeys (setLevel s.price_levels (priceOfKey s.is_bid k) [])).Nodup := by
      rw [levelKeys_setLevel]
      exact hwf.keys_nodup
    have hlk1 : lookupLevel (setLevel s.price_levels (priceOfKey s.is_bid k) [])
        (priceOfKey s.is_bid k) = some [] := lookupLevel_setLevel_self hlk
    have hlk2none : lookupLevel
        (eraseLevel (setLevel s.price_levels (priceOfKey s.is_bid k) []) (priceOfKey s.is_bid k))
        (priceOfKey s.is_bid k) = none := lookupLevel_eraseLevel_self hnd1
    have hrestlvl : ∀ k' ∈ rest, ∃ y ys,
        lookupLevel (eraseLevel (setLevel s.price_levels (priceOfKey s.is_bid k) [])
          (priceOfKey s.is_bid k)) (priceOfKey s.is_bid k') = some (y :: ys) := by
      intro k' hk'
      have hkk : k' ≠ k := fun h => hknotrest (h ▸ hk')
      have hpne : priceOfKey s.is_bid k' ≠ priceOfKey s.is_bid k := by
        intro h
        exact hkk (by rw [← keyOf_priceOfKey s.is_bid k', h, keyOf_priceOfKey])
      have hk'heap : keyOf s.is_bid (priceOfKey s.is_bid k') ∈ s.price_heap := by
        rw [keyOf_priceOfKey, hheap]
        exact List.mem_cons_of_mem _ hk'
      have hmem : priceOfKey s.is_bid k' ∈ levelKeys s.price_levels :=
        (hwf.heap_levels _).1 hk'heap
      obtain ⟨q, hq⟩ := Option.isSome_iff_exists.1 (lookupLevel_isSome_iff.2 hmem)
      have hqne : q ≠ [] := hwf.levels_ne _ (lookupLevel_mem hq)
      cases q with
      | nil => exact absurd rfl hqne
      | cons y ys =>
        refine ⟨y, ys, ?_⟩
        rw [lookupLevel_eraseLevel_ne hpne, lookupLevel_setLevel_ne hpne]
        exact hq
    have hloop : removeFilledLoop s.is_bid (k :: rest)
        (setLevel s.price_levels (priceOfKey s.is_bid k) []) =
        (rest, eraseLevel (setLevel s.price_levels (priceOfKey s.is_bid k) [])
          (priceOfKey s.is_bid k)) := by
      rw [removeFilledLoop, hlk1]
      cases rest with
      | nil => rw [removeFilledLoop]
      | cons k' rest' =>
        obtain ⟨y, ys, hy⟩ := hrestlvl k' (List.mem_cons_self _ _)
        exact removeFilledLoop_noop hy
    have hres : OrderBookSide.remove_filled_levels
        { s with price_levels := setLevel s.price_levels (priceOfKey s.is_bid k) [] } =
        { s with price_heap := rest,
                 price_levels := (eraseLevel (setLevel s.price_levels
                   (priceOfKey s.is_bid k) []) (priceOfKey s.is_bid k)) } := by
      rw [remove_filled_levels_def]
      dsimp only
      rw [hheap, hloop]
    rw [hres]
    have hsorted : rest.Pairwise (· < ·) := by
      have hs := hwf.heap_sorted
      rw [hheap] at hs
      exact (List.pairwise_cons.1 hs).2
    refine ⟨⟨hsorted, ?_, ?_, ?_, ?_⟩, rfl, fun m hm => by rw [hheap]; exact List.mem_cons_of_mem _ hm⟩
    · exact (levelKeys_eraseLevel_sublist _ _).nodup hnd1
    · intro pp
      constructor
      · intro hpp
        have hppk : keyOf s.is_bid pp ∈ s.price_heap := by
          rw [hheap]
          exact List.mem_cons_of_mem _ hpp
        have hpmem : pp ∈ levelKeys s.price_levels := (hwf.heap_levels pp).1 hppk
        have hppne : pp ≠ priceOfKey s.is_bid k := by
          intro h
          rw [h, keyOf_priceOfKey] at hpp
          exact hknotrest hpp
        rw [mem_levelKeys_eraseLevel hppne, levelKeys_setLevel]
        exact hpmem
      · intro hpp
        have hppne : pp ≠ priceOfKey s.is_bid k := by
          intro h
          rw [h] at hpp
          have := lookupLevel_isSome_iff.2 hpp
          rw [hlk2none] at this
          simp at this
        have hpmem : pp ∈ levelKeys s.price_levels := by
          rw [mem_levelKeys_eraseLevel hppne, levelKeys_setLevel] at hpp
          exact hpp
        have := (hwf.heap_levels pp).2 hpmem
        rw [hheap] at this
        rcases List.mem_cons.1 this with h | h
        · exact absurd (by rw [← priceOfKey_keyOf s.is_bid pp, h]) hppne
        · exact h
    · intro pq hpq
      have hkey : pq.1 ∈ levelKeys (eraseLevel (setLevel s.price_levels
          (priceOfKey s.is_bid k) []) (priceOfKey s.is_bid k)) :=
        List.mem_map_of_mem Prod.fst hpq
      have hne : pq.1 ≠ priceOfKey s.is_bid k := by
        intro h
        have := lookupLevel_isSome_iff.2 hkey
        rw [h, hlk2none] at this
        simp at this
      rcases mem_setLevel (mem_eraseLevel hpq) with h | h
      · exact hwf.levels_ne pq h
      · exact absurd (congrArg Prod.fst h) hne
    · intro pq hpq x hx
      rcases mem_setLevel (mem_eraseLevel hpq) with h | h
      · exact hwf.open_pos pq h x hx
      · rw [h] at hx
        simp at hx

/-- The matching loop preserves side well-formedness, only removes heap
entries, never changes the taker's side or limit, and can only leave the taker
with open quantity when the opposing side is exhausted or no longer crosses
the taker's limit. -/
theorem matchLoop_wf :
    ∀ (fuel : Nat) (o : Order) (opp : OrderBookSide) (tr : List Trade)
      (res : Order × OrderBookSide × List Trade),
      SideWF opp → matchLoop fuel o opp tr = some res →
      SideWF res.2.1
      ∧ res.2.1.is_bid = opp.is_bid
      ∧ (∀ k ∈ res.2.1.price_heap, k ∈ opp.price_heap)
      ∧ res.1.side = o.side ∧ res.1.price = o.price
      ∧ (0 < Order.open_qty res.1 →
          OrderBookSide.best_price res.2.1 = none ∨
          ∃ bp, OrderBookSide.best_price res.2.1 = some bp ∧
            ¬((o.side = Side.buy ∧ bp ≤ o.price) ∨ (o.side = Side.sell ∧ o.price ≤ bp))) := by
  intro fuel
  induction fuel with
  | zero =>
    intro o opp tr res hwf h
    simp [matchLoop] at h
  | succ fuel ih =>
    intro o opp tr res hwf h
    rw [matchLoop] at h
    by_cases hopen : 0 < Order.open_qty o
    · rw [if_pos hopen] at h
      cases hbp : OrderBookSide.best_price opp with
      | none =>
        rw [hbp] at h
        obtain rfl : (o, opp, tr) = res := by simpa using h
        exact ⟨hwf, rfl, fun k hk => hk, rfl, rfl, fun _ => Or.inl hbp⟩
      | some bp =>
        rw [hbp] at h
        dsimp only at h
        by_cases hcross : (o.side = Side.buy ∧ bp ≤ o.price) ∨ (o.side = Side.sell ∧ o.price ≤ bp)
        · rw [if_pos hcross] at h
          cases hlk : lookupLevel opp.price_levels bp with
          | none =>
            rw [hlk] at h
            simp at h
          | some q =>
            cases q with
            | nil =>
              rw [hlk] at h
              simp at h
            | cons maker restQ =>
              rw [hlk] at h
              dsimp only at h
              have hposQ : ∀ x ∈ restQ, 0 < Order.open_qty x := by
                intro x hx
                exact hwf.open_pos _ (lookupLevel_mem hlk) x (List.mem_cons_of_mem _ hx)
              by_cases hm0 : Order.open_qty
                  (MatchingEngine.execute_trade maker o
                    (min (Order.open_qty o) (Order.open_qty maker)) bp).1 = 0
              · rw [if_pos hm0] at h
                cases hh : opp.price_heap with
                | nil =>
                  rw [OrderBookSide.best_price, hh] at hbp
                  simp at hbp
                | cons k rest =>
                  have hbpk : priceOfKey opp.is_bid k = bp := by
                    rw [OrderBookSide.best_price, hh] at hbp
                    simpa using hbp
                  rw [← hbpk] at hlk h
                  obtain ⟨hwf', hbid', hsub'⟩ := popStep_wf hwf hh hlk hposQ
                  obtain ⟨h1, h2, h3, h4, h5, h6⟩ := ih _ _ _ _ hwf' h
                  refine ⟨h1, by rw [h2, hbid'], ?_, ?_, ?_, ?_⟩
                  · intro m hm
                    have hmo := hsub' m (h3 m hm)
                    rw [hh] at hmo
                    exact hmo
                  · rw [h4]; rfl
                  · rw [h5]; rfl
                  · intro hop
                    rcases h6 hop with h' | ⟨bp', hbp', hcr'⟩
                    · exact Or.inl h'
                    · refine Or.inr ⟨bp', hbp', ?_⟩
                      simpa [setFill_side, setFill_price] using hcr'
              · rw [if_neg hm0] at h
                have hwf2 : SideWF { opp with price_levels := (setLevel opp.price_levels bp
                    ((MatchingEngine.execute_trade maker o
                      (min (Order.open_qty o) (Order.open_qty maker)) bp).1 :: restQ)) } := by
                  refine setLevel_wf hwf (by simp [hlk]) (by simp) ?_
                  intro x hx
                  rcases List.mem_cons.1 hx with rfl | hx'
                  · have hle : min (Order.open_qty o) (Order.open_qty maker) ≤
                        Order.open_qty maker := min_le_right _ _
                    have : Order.open_qty (MatchingEngine.execute_trade maker o
                        (min (Order.open_qty o) (Order.open_qty maker)) bp).1 =
                        Order.open_qty maker - min (Order.open_qty o) (Order.open_qty maker) :=
                      setFill_open _ _
                    rw [this] at hm0 ⊢
                    omega
                  · exact hposQ x hx'
                obtain ⟨h1, h2, h3, h4, h5, h6⟩ := ih _ _ _ _ hwf2 h
                refine ⟨h1, h2, h3, ?_, ?_, ?_⟩
                · rw [h4]; rfl
                · rw [h5]; rfl
                · intro hop
                  rcases h6 hop with h' | ⟨bp', hbp', hcr'⟩
                  · exact Or.inl h'
                  · refine Or.inr ⟨bp', hbp', ?_⟩
                    simpa [setFill_side, setFill_price] using hcr'
        · rw [if_neg hcross] at h
          obtain rfl : (o, opp, tr) = res := by simpa using h
          exact ⟨hwf, rfl, fun k hk => hk, rfl, rfl, fun _ => Or.inr ⟨bp, hbp, hcross⟩⟩
    · rw [if_neg hopen] at h
      obtain rfl : (o, opp, tr) = res := by simpa using h
      exact ⟨hwf, rfl, fun k hk => hk, rfl, rfl, fun hop => absurd hop hopen⟩

/-- Resting an order with positive open quantity preserves side
well-formedness. -/
theorem add_wf {s : OrderBookSide} (hwf : SideWF s) {o : Order}
    (ho : 0 < Order.open_qty o) : SideWF (OrderBookSide.add s o) := by
  by_cases hpres : (lookupLevel s.price_levels o.price).isSome
  · have hmem : o.price ∈ levelKeys s.price_levels := lookupLevel_isSome_iff.1 hpres
    have hadd : OrderBookSide.add s o =
        { s with price_levels := appendLevel s.price_levels o.price o,
                 orders := setRef s.orders o.id o.price } := by
      simp [OrderBookSide.add, hpres]
    rw [hadd]
    refine ⟨hwf.heap_sorted, ?_, ?_, ?_, ?_⟩
    · rw [levelKeys_appendLevel_present hmem]
      exact hwf.keys_nodup
    · intro pp
      rw [levelKeys_appendLevel_present hmem]
      exact hwf.heap_levels pp
    · intro pq hpq
      rcases mem_appendLevel hpq with h | ⟨q0, heq, _⟩
      · exact hwf.levels_ne pq h
      · rw [heq]
        simp
    · intro pq hpq x hx
      rcases mem_appendLevel hpq with h | ⟨q0, heq, hq0⟩
      · exact hwf.open_pos pq h x hx
      · subst heq
        rcases List.mem_append.1 hx with hx' | hx'
        · rcases hq0 with rfl | hq0
          · simp at hx'
          · exact hwf.open_pos _ (lookupLevel_mem hq0) x hx'
        · obtain rfl : x = o := by simpa using hx'
          exact ho
  · have hnotmem : o.price ∉ levelKeys s.price_levels :=
      fun h => hpres (lookupLevel_isSome_iff.2 h)
    have hknot : keyOf s.is_bid o.price ∉ s.price_heap :=
      fun h => hnotmem ((hwf.heap_levels o.price).1 h)
    have hadd : OrderBookSide.add s o =
        { s with price_heap := insertKey (keyOf s.is_bid o.price) s.price_heap,
                 price_levels := appendLevel s.price_levels o.price o,
                 orders := setRef s.orders o.id o.price } := by
      simp [OrderBookSide.add, hpres]
    rw [hadd]
    refine ⟨insertKey_sorted hwf.heap_sorted hknot, ?_, ?_, ?_, ?_⟩
    · rw [levelKeys_appendLevel_absent hnotmem]
      simp only [List.nodup_append, List.nodup_cons, List.not_mem_nil, not_false_iff,
        List.nodup_nil, and_true, true_and]
      refine ⟨hwf.keys_nodup, ?_⟩
      intro a ha
      simp only [List.mem_singleton]
      intro hac
      exact hnotmem (hac ▸ ha)
    · intro pp
      rw [levelKeys_appendLevel_absent hnotmem, mem_insertKey, List.mem_append,
        List.mem_singleton]
      constructor
      · rintro (h | h)
        · exact Or.inr (keyOf_inj h)
        · exact Or.inl ((hwf.heap_levels pp).1 h)
      · rintro (h | h)
        · exact Or.inr ((hwf.heap_levels pp).2 h)
        · exact Or.inl (h ▸ rfl)
    · intro pq hpq
      rcases mem_appendLevel hpq with h | ⟨q0, heq, _⟩
      · exact hwf.levels_ne pq h
      · rw [heq]
        simp
    · intro pq hpq x hx
      rcases mem_appendLevel hpq with h | ⟨q0, heq, hq0⟩
      · exact hwf.open_pos pq h x hx
      · subst heq
        rcases List.mem_append.1 hx with hx' | hx'
        · rcases hq0 with rfl | hq0
          · simp at hx'
          · exact hwf.open_pos _ (lookupLevel_mem hq0) x hx'
        · obtain rfl : x = o := by simpa using hx'
          exact ho

theorem best_price_heap {s : OrderBookSide} {bp : Rat}
    (h : OrderBookSide.best_price s = some bp) :
    ∃ k rest, s.price_heap = k :: rest ∧ bp = priceOfKey s.is_bid k := by
  cases hh : s.price_heap with
  | nil => rw [OrderBookSide.best_price, hh] at h; simp at h
  | cons k rest =>
    rw [OrderBookSide.best_price, hh] at h
    exact ⟨k, rest, rfl, by simpa using h.symm⟩

/-- A side whose heap only lost entries has a best price no better (in raw-key
order) than before. -/
theorem best_le_of_subset {s s' : OrderBookSide} (hwf : SideWF s)
    (hbid : s'.is_bid = s.is_bid) (hsub : ∀ k ∈ s'.price_heap, k ∈ s.price_heap)
    {bp' : Rat} (hb' : OrderBookSide.best_price s' = some bp') :
    ∃ bp, OrderBookSide.best_price s = some bp ∧
      keyOf s.is_bid bp ≤ keyOf s.is_bid bp' := by
  obtain ⟨k', rest', hh', hbp'⟩ := best_price_heap hb'
  have hk'in : k' ∈ s.price_heap := hsub k' (by rw [hh']; exact List.mem_cons_self _ _)
  cases hh : s.price_heap with
  | nil => rw [hh] at hk'in; simp at hk'in
  | cons k rest =>
    refine ⟨priceOfKey s.is_bid k, by rw [OrderBookSide.best_price, hh], ?_⟩
    rw [keyOf_priceOfKey, hbp', hbid, keyOf_priceOfKey]
    rw [hh] at hk'in
    have hs := hwf.heap_sorted
    rw [hh] at hs
    exact sorted_head_le hs k' hk'in

/-- The best price after resting an order: either the book was empty and the
new order's price is the best, or the best raw key is the minimum of the old
best and the order's key. -/
theorem add_best {s : OrderBookSide} (hwf : SideWF s) {o : Order} {bp' : Rat}
    (hb' : OrderBookSide.best_price (OrderBookSide.add s o) = some bp') :
    (OrderBookSide.best_price s = none ∧ bp' = o.price) ∨
    (∃ bb, OrderBookSide.best_price s = some bb ∧
      keyOf s.is_bid bp' = min (keyOf s.is_bid o.price) (keyOf s.is_bid bb)) := by
  by_cases hpres : (lookupLevel s.price_levels o.price).isSome
  · have hheap : (OrderBookSide.add s o).price_heap = s.price_heap := by
      simp [OrderBookSide.add, hpres]
    have hb : OrderBookSide.best_price s = some bp' := by
      rw [OrderBookSide.best_price] at hb' ⊢
      rw [hheap] at hb'
      exact hb'
    obtain ⟨k, rest, hh, hbpk⟩ := best_price_heap hb
    have homem : keyOf s.is_bid o.price ∈ s.price_heap :=
      (hwf.heap_levels o.price).2 (lookupLevel_isSome_iff.1 hpres)
    have hle : keyOf s.is_bid bp' ≤ keyOf s.is_bid o.price := by
      rw [hbpk, keyOf_priceOfKey]
      have hs := hwf.heap_sorted
      rw [hh] at hs homem
      exact sorted_head_le hs _ homem
    exact Or.inr ⟨bp', hb, (min_eq_right hle).symm⟩
  · have hheap : (OrderBookSide.add s o).price_heap =
        insertKey (keyOf s.is_bid o.price) s.price_heap := by
      simp [OrderBookSide.add, hpres]
    cases hh : s.price_heap with
    | nil =>
      left
      have : (OrderBookSide.add s o).price_heap = [keyOf s.is_bid o.price] := by
        rw [hheap, hh, insertKey]
      rw [OrderBookSide.best_price, this] at hb'
      simp only [Option.some.injEq] at hb'
      refine ⟨by rw [OrderBookSide.best_price, hh], ?_⟩
      rw [← hb']
      exact priceOfKey_keyOf _ _
    | cons k rest =>
      right
      refine ⟨priceOfKey s.is_bid k, by rw [OrderBookSide.best_price, hh], ?_⟩
      have : (OrderBookSide.add s o).price_heap =
          if keyOf s.is_bid o.price ≤ k then keyOf s.is_bid o.price :: k :: rest
          else k :: insertKey (keyOf s.is_bid o.price) rest := by
        rw [hheap, hh, insertKey]
      rw [OrderBookSide.best_price, this] at hb'
      rw [keyOf_priceOfKey]
      have hbid2 : (OrderBookSide.add s o).is_bid = s.is_bid := rfl
      by_cases hk : keyOf s.is_bid o.price ≤ k
      · rw [if_pos hk] at hb'
        simp only [Option.some.injEq] at hb'
        rw [← hb', hbid2, keyOf_priceOfKey, min_eq_left hk]
      · rw [if_neg hk] at hb'
        simp only [Option.some.injEq] at hb'
        rw [← hb', hbid2, keyOf_priceOfKey, min_eq_right (le_of_not_le hk)]

/-- `process_order` specialised to a sell order. -/
theorem process_order_sell (e : MatchingEngine) (o : Order) (hsd : o.side = Side.sell) :
    MatchingEngine.process_order e o =
      match matchLoop (sideOrderCount e.bids + 2) o e.bids e.trades with
      | none => none
      | some (o', opp', trades') =>
        if 0 < Order.open_qty o' then
          some ({ e with bids := opp', asks := OrderBookSide.add e.asks o',
                         trades := trades' }, OrderResult.RESTING)
        else some ({ e with bids := opp', trades := trades' }, OrderResult.FILLED) := by
  rw [MatchingEngine.process_order, hsd]
  rfl

/-- `process_order` specialised to a buy order. -/
theorem process_order_buy (e : MatchingEngine) (o : Order) (hsd : o.side = Side.buy) :
    MatchingEngine.process_order e o =
      match matchLoop (sideOrderCount e.asks + 2) o e.asks e.trades with
      | none => none
      | some (o', opp', trades') =>
        if 0 < Order.open_qty o' then
          some ({ e with asks := opp', bids := OrderBookSide.add e.bids o',
                         trades := trades' }, OrderResult.RESTING)
        else some ({ e with asks := opp', trades := trades' }, OrderResult.FILLED) := by
  rw [MatchingEngine.process_order, hsd]
  rfl

theorem keyOf_false (x : Rat) : keyOf false x = x := rfl

theorem keyOf_true (x : Rat) : keyOf true x = -x := rfl

/-- A completed `process_order` call preserves engine well-formedness,
including the no-crossed-book condition. -/
theorem process_order_wf {e : MatchingEngine} {o : Order} {e' : MatchingEngine}
    {r : OrderResult} (hwf : EngineWF e)
    (h : MatchingEngine.process_order e o = some (e', r)) : EngineWF e' := by
  cases hsd : o.side with
  | sell =>
    rw [process_order_sell e o hsd] at h
    cases hml : matchLoop (sideOrderCount e.bids + 2) o e.bids e.trades with
    | none => rw [hml] at h; simp at h
    | some res =>
      obtain ⟨o', opp', tr'⟩ := res
      rw [hml] at h
      dsimp only at h
      obtain ⟨hwfB, hbidB, hsubB, hsideO, hpriceO, hexit⟩ :=
        matchLoop_wf _ o e.bids e.trades (o', opp', tr') hwf.bids_wf hml
      dsimp only at hwfB hbidB hsubB hsideO hpriceO hexit
      by_cases hop : 0 < Order.open_qty o'
      · rw [if_pos hop] at h
        rw [Option.some.injEq, Prod.mk.injEq] at h
        obtain ⟨rfl, rfl⟩ := h
        refine ⟨hwfB, add_wf hwf.asks_wf hop, ?_, ?_, ?_⟩
        · show opp'.is_bid = true
          rw [hbidB]
          exact hwf.bids_flag
        · show (OrderBookSide.add e.asks o').is_bid = false
          show e.asks.is_bid = false
          exact hwf.asks_flag
        · intro bb' ba' hbb hba
          have hbplt : bb' < o.price := by
            rcases hexit hop with hnone | ⟨bp, hbp, hncr⟩
            · rw [hnone] at hbb; cases hbb
            · obtain rfl : bp = bb' := by rw [hbp] at hbb; exact Option.some.inj hbb
              by_contra hle
              exact hncr (Or.inr ⟨hsd, le_of_not_lt hle⟩)
          rcases add_best hwf.asks_wf hba with ⟨hanone, rfl⟩ | ⟨ba, hbaold, hmin⟩
          · rw [hpriceO]
            exact hbplt
          · obtain ⟨bb, hbbold, hkey⟩ := best_le_of_subset hwf.bids_wf hbidB hsubB hbb
            have hbble : bb' ≤ bb := by
              rw [hwf.bids_flag, keyOf_true, keyOf_true, neg_le_neg_iff] at hkey
              exact hkey
            have hlt : bb < ba := hwf.not_crossed bb ba hbbold hbaold
            rw [hwf.asks_flag, keyOf_false, keyOf_false, keyOf_false] at hmin
            rw [hpriceO] at hmin
            rw [hmin]
            exact lt_min hbplt (lt_of_le_of_lt hbble hlt)
      · rw [if_neg hop] at h
        rw [Option.some.injEq, Prod.mk.injEq] at h
        obtain ⟨rfl, rfl⟩ := h
        refine ⟨hwfB, hwf.asks_wf, ?_, hwf.asks_flag, ?_⟩
        · show opp'.is_bid = true
          rw [hbidB]
          exact hwf.bids_flag
        · intro bb' ba' hbb hba
          obtain ⟨bb, hbbold, hkey⟩ := best_le_of_subset hwf.bids_wf hbidB hsubB hbb
          have hbble : bb' ≤ bb := by
            rw [hwf.bids_flag, keyOf_true, keyOf_true, neg_le_neg_iff] at hkey
            exact hkey
          exact lt_of_le_of_lt hbble (hwf.not_crossed bb ba' hbbold hba)
  | buy =>
    rw [process_order_buy e o hsd] at h
    cases hml : matchLoop (sideOrderCount e.asks + 2) o e.asks e.trades with
    | none => rw [hml] at h; simp at h
    | some res =>
      obtain ⟨o', opp', tr'⟩ := res
      rw [hml] at h
      dsimp only at h
      obtain ⟨hwfA, hbidA, hsubA, hsideO, hpriceO, hexit⟩ :=
        matchLoop_wf _ o e.asks e.trades (o', opp', tr') hwf.asks_wf hml
      dsimp only at hwfA hbidA hsubA hsideO hpriceO hexit
      by_cases hop : 0 < Order.open_qty o'
      · rw [if_pos hop] at h
        rw [Option.some.injEq, Prod.mk.injEq] at h
        obtain ⟨rfl, rfl⟩ := h
        refine ⟨add_wf hwf.bids_wf hop, hwfA, ?_, ?_, ?_⟩
        · show (OrderBookSide.add e.bids o').is_bid = true
          show e.bids.is_bid = true
          exact hwf.bids_flag
        · show opp'.is_bid = false
          rw [hbidA]
          exact hwf.asks_flag
        · intro bb' ba' hbb hba
          have hbplt : o.price < ba' := by
            rcases hexit hop with hnone | ⟨bp, hbp, hncr⟩
            · rw [hnone] at hba; cases hba
            · obtain rfl : bp = ba' := by rw [hbp] at hba; exact Option.some.inj hba
              by_contra hle
              exact hncr (Or.inl ⟨hsd, le_of_not_lt hle⟩)
          rcases add_best hwf.bids_wf hbb with ⟨hbnone, rfl⟩ | ⟨bb, hbbold, hmin⟩
          · rw [hpriceO]
            exact hbplt
          · obtain ⟨ba, hbaold, hkey⟩ := best_le_of_subset hwf.asks_wf hbidA hsubA hba
            have hbale : ba ≤ ba' := by
              rw [hwf.asks_flag, keyOf_false, keyOf_false] at hkey
              exact hkey
            have hlt : bb < ba := hwf.not_crossed bb ba hbbold hbaold
            rw [hwf.bids_flag, keyOf_true, keyOf_true, keyOf_true] at hmin
            rw [hpriceO] at hmin
            rcases min_cases (-o.price) (-bb) with ⟨hmeq, _⟩ | ⟨hmeq, _⟩
            · rw [hmeq] at hmin
              have : bb' = o.price := by
                have := neg_injective hmin
                exact this
              rw [this]
              exact hbplt
            · rw [hmeq] at hmin
              have : bb' = bb := neg_injective hmin
              rw [this]
              exact lt_of_lt_of_le hlt hbale
      · rw [if_neg hop] at h
        rw [Option.some.injEq, Prod.mk.injEq] at h
        obtain ⟨rfl, rfl⟩ := h
        refine ⟨hwf.bids_wf, hwfA, hwf.bids_flag, ?_, ?_⟩
        · show opp'.is_bid = false
          rw [hbidA]
          exact hwf.asks_flag
        · intro bb' ba' hbb hba
          obtain ⟨ba, hbaold, hkey⟩ := best_le_of_subset hwf.asks_wf hbidA hsubA hba
          have hbale : ba ≤ ba' := by
            rw [hwf.asks_flag, keyOf_false, keyOf_false] at hkey
            exact hkey
          exact lt_of_lt_of_le (hwf.not_crossed bb' ba hbb hbaold) hbale

theorem empty_side_wf (b : Bool) :
    SideWF { is_bid := b, price_heap := [], price_levels := [], orders := [] } := by
  refine ⟨List.Pairwise.nil, List.nodup_nil, ?_, ?_, ?_⟩
  · intro p
    simp [levelKeys]
  · intro pq h
    simp at h
  · intro pq h
    simp at h

theorem emptyEngine_wf : EngineWF emptyEngine := by
  refine ⟨empty_side_wf true, empty_side_wf false, rfl, rfl, ?_⟩
  intro bb ba hbb hba
  simp [emptyEngine, OrderBookSide.best_price] at hbb

/-- Every engine reachable by completed `process_order` calls is well-formed
and uncrossed. -/
theorem reachable_wf {e : MatchingEngine} (h : Reachable e) : EngineWF e := by
  induction h with
  | empty => exact emptyEngine_wf
  | step hre hstep ih => exact process_order_wf ih hstep

/-! ### C2 — the book is never left crossed -/

/-- C2: for every engine state reachable from the empty book by completed
`process_order` calls, after any further completed `process_order` call, if
both sides report a best price then the best bid is strictly below the best
ask. -/
theorem no_crossed_book (e : MatchingEngine) (o : Order) (e' : MatchingEngine)
    (r : OrderResult) (bb ba : Rat) (hre : Reachable e)
    (h : MatchingEngine.process_order e o = some (e', r))
    (hbb : OrderBookSide.best_price e'.bids = some bb)
    (hba : OrderBookSide.best_price e'.asks = some ba) : bb < ba :=
  (process_order_wf (reachable_wf hre) h).not_crossed bb ba hbb hba

/-- Witness for C2: from the one-ask book (reachable from empty), resting a
bid 5@100 leaves best bid 100 strictly below best ask 101. -/
theorem no_crossed_book_witness : Reachable crossBook1 ∧ (100 : Rat) < 101 :=
  ⟨Reachable.step Reachable.empty
      (show MatchingEngine.process_order emptyEngine
          { id := 1, side := Side.sell, price := 101, qty := 10, timestamp := 1000 } =
          some (crossBook1, OrderResult.RESTING) by decide),
   no_crossed_book crossBook1
     { id := 2, side := Side.buy, price := 100, qty := 5, timestamp := 1001 }
     crossBook2 OrderResult.RESTING 100 101
     (Reachable.step Reachable.empty
       (show MatchingEngine.process_order emptyEngine
           { id := 1, side := Side.sell, price := 101, qty := 10, timestamp := 1000 } =
           some (crossBook1, OrderResult.RESTING) by decide))
     (by decide) (by decide) (by decide)⟩

theorem setFill_qty (o : Order) (q : Int) : (setFill o q).qty = o.qty := rfl

theorem setFill_bdd {o : Order} {q : Int} (hb : BddOrder o) (h0 : 0 ≤ q)
    (hle : q ≤ Order.open_qty o) : BddOrder (setFill o q) := by
  obtain ⟨h1, h2⟩ := hb
  rw [Order.open_qty] at hle
  constructor
  · rw [setFill_filled]
    omega
  · rw [setFill_filled, setFill_qty]
    omega

theorem bddOrder_open_nonneg {o : Order} (hb : BddOrder o) : 0 ≤ Order.open_qty o := by
  obtain ⟨h1, h2⟩ := hb
  rw [Order.open_qty]
  omega

/-- Resting an order with `0 ≤ filled ≤ qty` preserves the side-wide bound. -/
theorem add_bdd {s : OrderBookSide} (hb : BddSide s) {o : Order} (ho : BddOrder o) :
    BddSide (OrderBookSide.add s o) := by
  intro pq hpq x hx
  have hpq' : pq ∈ appendLevel s.price_levels o.price o := hpq
  rcases mem_appendLevel hpq' with h' | ⟨q0, heq, hq0⟩
  · exact hb _ h' x hx
  · subst heq
    rcases List.mem_append.1 hx with hx' | hx'
    · rcases hq0 with rfl | hq0
      · simp at hx'
      · exact hb _ (lookupLevel_mem hq0) x hx'
    · obtain rfl : x = o := by simpa using hx'
      exact ho

/-- The matching loop keeps `0 ≤ filled_qty ≤ qty` for the taker and for every
order resting on the opposing side, at every intermediate state. -/
theorem matchLoop_bdd :
    ∀ (fuel : Nat) (o : Order) (opp : OrderBookSide) (tr : List Trade)
      (res : Order × OrderBookSide × List Trade),
      BddSide opp → BddOrder o → matchLoop fuel o opp tr = some res →
      BddOrder res.1 ∧ BddSide res.2.1 := by
  intro fuel
  induction fuel with
  | zero =>
    intro o opp tr res hbs hbo h
    simp [matchLoop] at h
  | succ fuel ih =>
    intro o opp tr res hbs hbo h
    rw [matchLoop] at h
    by_cases hopen : 0 < Order.open_qty o
    · rw [if_pos hopen] at h
      cases hbp : OrderBookSide.best_price opp with
      | none =>
        rw [hbp] at h
        obtain rfl : (o, opp, tr) = res := by simpa using h
        exact ⟨hbo, hbs⟩
      | some bp =>
        rw [hbp] at h
        dsimp only at h
        by_cases hcross : (o.side = Side.buy ∧ bp ≤ o.price) ∨ (o.side = Side.sell ∧ o.price ≤ bp)
        · rw [if_pos hcross] at h
          cases hlk : lookupLevel opp.price_levels bp with
          | none =>
            rw [hlk] at h
            simp at h
          | some q =>
            cases q with
            | nil =>
              rw [hlk] at h
              simp at h
            | cons maker restQ =>
              rw [hlk] at h
              dsimp only at h
              have hbm : BddOrder maker :=
                hbs _ (lookupLevel_mem hlk) maker (List.mem_cons_self _ _)
              have hbQ : ∀ x ∈ restQ, BddOrder x :=
                fun x hx => hbs _ (lookupLevel_mem hlk) x (List.mem_cons_of_mem _ hx)
              have hq0 : 0 ≤ min (Order.open_qty o) (Order.open_qty maker) :=
                le_min (bddOrder_open_nonneg hbo) (bddOrder_open_nonneg hbm)
              have hbm' : BddOrder (MatchingEngine.execute_trade maker o
                  (min (Order.open_qty o) (Order.open_qty maker)) bp).1 :=
                setFill_bdd hbm hq0 (min_le_right _ _)
              have hbt' : BddOrder (MatchingEngine.execute_trade maker o
                  (min (Order.open_qty o) (Order.open_qty maker)) bp).2.1 :=
                setFill_bdd hbo hq0 (min_le_left _ _)
              by_cases hm0 : Order.open_qty
                  (MatchingEngine.execute_trade maker o
                    (min (Order.open_qty o) (Order.open_qty maker)) bp).1 = 0
              · rw [if_pos hm0] at h
                refine ih _ _ _ _ ?_ hbt' h
                intro pq hpq x hx
                have hpq' : pq ∈ setLevel opp.price_levels bp restQ :=
                  removeFilledLoop_levels_subset _ _ _ _ hpq
                rcases mem_setLevel hpq' with h' | h'
                · exact hbs _ h' x hx
                · subst h'
                  exact hbQ x hx
              · rw [if_neg hm0] at h
                refine ih _ _ _ _ ?_ hbt' h
                intro pq hpq x hx
                rcases mem_setLevel hpq with h' | h'
                · exact hbs _ h' x hx
                · subst h'
                  rcases List.mem_cons.1 hx with rfl | hx'
                  · exact hbm'
                  · exact hbQ x hx'
        · rw [if_neg hcross] at h
          obtain rfl : (o, opp, tr) = res := by simpa using h
          exact ⟨hbo, hbs⟩
    · rw [if_neg hopen] at h
      obtain rfl : (o, opp, tr) = res := by simpa using h
      exact ⟨hbo, hbs⟩

/-! ### C5 — quantity conservation -/

/-- C5: every recorded trade increments maker and taker `filled_qty` by
exactly the trade's quantity (and carries their ids); and `0 ≤ filled_qty ≤
qty` holds for the taker and every resting order at every intermediate state
of the matching loop and after any completed `process_order` call whose taker
was submitted with `filled_qty = 0` and nonnegative quantity. -/
theorem quantity_conservation :
    (∀ (maker taker : Order) (q : Int) (p : Rat),
        (MatchingEngine.execute_trade maker taker q p).1.filled_qty = maker.filled_qty + q
      ∧ (MatchingEngine.execute_trade maker taker q p).2.1.filled_qty = taker.filled_qty + q
      ∧ (MatchingEngine.execute_trade maker taker q p).2.2.qty = q
      ∧ (MatchingEngine.execute_trade maker taker q p).2.2.maker_order_id = maker.id
      ∧ (MatchingEngine.execute_trade maker taker q p).2.2.taker_order_id = taker.id)
  ∧ (∀ (fuel : Nat) (o : Order) (opp : OrderBookSide) (tr : List Trade)
        (res : Order × OrderBookSide × List Trade),
        BddSide opp → BddOrder o → matchLoop fuel o opp tr = some res →
        BddOrder res.1 ∧ BddSide res.2.1)
  ∧ (∀ (e : MatchingEngine) (o : Order) (e' : MatchingEngine) (r : OrderResult),
        BddSide e.bids → BddSide e.asks → o.filled_qty = 0 → 0 ≤ o.qty →
        MatchingEngine.process_order e o = some (e', r) →
        BddSide e'.bids ∧ BddSide e'.asks) := by
  refine ⟨fun maker taker q p => ⟨rfl, rfl, rfl, rfl, rfl⟩, matchLoop_bdd, ?_⟩
  intro e o e' r hbB hbA hf hq h
  have hbo : BddOrder o := ⟨by rw [hf], by rw [hf]; exact hq⟩
  cases hsd : o.side with
  | sell =>
    rw [process_order_sell e o hsd] at h
    cases hml : matchLoop (sideOrderCount e.bids + 2) o e.bids e.trades with
    | none => rw [hml] at h; simp at h
    | some res =>
      obtain ⟨o', opp', tr'⟩ := res
      rw [hml] at h
      dsimp only at h
      obtain ⟨hbo', hbs'⟩ := matchLoop_bdd _ o e.bids e.trades (o', opp', tr') hbB hbo hml
      dsimp only at hbo' hbs'
      by_cases hop : 0 < Order.open_qty o'
      · rw [if_pos hop] at h
        rw [Option.some.injEq, Prod.mk.injEq] at h
        obtain ⟨rfl, rfl⟩ := h
        exact ⟨hbs', add_bdd hbA hbo'⟩
      · rw [if_neg hop] at h
        rw [Option.some.injEq, Prod.mk.injEq] at h
        obtain ⟨rfl, rfl⟩ := h
        exact ⟨hbs', hbA⟩
  | buy =>
    rw [process_order_buy e o hsd] at h
    cases hml : matchLoop (sideOrderCount e.asks + 2) o e.asks e.trades with
    | none => rw [hml] at h; simp at h
    | some res =>
      obtain ⟨o', opp', tr'⟩ := res
      rw [hml] at h
      dsimp only at h
      obtain ⟨hbo', hbs'⟩ := matchLoop_bdd _ o e.asks e.trades (o', opp', tr') hbA hbo hml
      dsimp only at hbo' hbs'
      by_cases hop : 0 < Order.open_qty o'
      · rw [if_pos hop] at h
        rw [Option.some.injEq, Prod.mk.injEq] at h
        obtain ⟨rfl, rfl⟩ := h
        exact ⟨add_bdd hbB hbo', hbs'⟩
      · rw [if_neg hop] at h
        rw [Option.some.injEq, Prod.mk.injEq] at h
        obtain ⟨rfl, rfl⟩ := h
        exact ⟨hbB, hbs'⟩

/-- Witness for C5: processing the sell 10@101 on the empty engine leaves both
sides within bounds. -/
theorem quantity_conservation_witness :
    BddSide crossBook1.bids ∧ BddSide crossBook1.asks :=
  quantity_conservation.2.2 emptyEngine
    { id := 1, side := Side.sell, price := 101, qty := 10, timestamp := 1000 }
    crossBook1 OrderResult.RESTING
    (by intro pq hpq x hx; simp [emptyEngine] at hpq)
    (by intro pq hpq x hx; simp [emptyEngine] at hpq)
    rfl (by norm_num) (by decide)
